import Mathlib

/-!
Verification development for the locomote query API (`src/lib/query.js`).

The evaluator is embedded shallowly:

* JavaScript values appearing in records are `JSVal`; primary keys and index
  keys are modelled as `String` (the stores under test are string-keyed, and
  IndexedDB compares keys of the same type lexicographically, which matches
  `String`'s linear order).
* The asynchronous cursor machinery is deterministic (one query owns its
  cursors; `pending` reaches `0` exactly once per iteration), so the merge
  coordinator is embedded as a pure, fuel-indexed recursion `runLoop`.  The
  fuel handed to it by `queryKeys` exceeds the number of iterations the JS
  loop can perform (every non-terminal iteration consumes at least one cursor
  row), so the fuel-exhaustion branch is never taken on the canonical fuel.
* Exceptions (`throw` / `reject`) are modelled with `Except String`.
* The underlying store collaborator (IndexedDB) is modelled per its
  documented contract: a primary-key cursor visits rows in ascending primary
  key order; an index cursor visits index entries in ascending
  (index key, primary key) order and exposes the primary key of the pointed
  record; `IDBKeyRange` bounds are inclusive.
-/

/-- A JavaScript value as it appears in a stored record: `undefined`, `null`,
booleans, (integer) numbers, strings, and plain objects.  Non-integer
numerals, arrays and exotic objects do not occur in the embedded fragment. -/
inductive JSVal where
  | undefV : JSVal
  | jsNull : JSVal
  | bool : Bool → JSVal
  | num : Int → JSVal
  | str : String → JSVal
  | obj : List (String × JSVal) → JSVal

/-- JavaScript truthiness of a `JSVal` (`undefined`, `null`, `false`, `0` and
`""` are falsy; every object is truthy). -/
def JSVal.truthy : JSVal → Bool
  | .undefV => false
  | .jsNull => false
  | .bool b => b
  | .num n => n != 0
  | .str s => s != ""
  | .obj _ => true

/-- Property access `v[key]` for the values that can be reached by a dotted
path after a truthiness guard: objects look the key up (first binding, as JS
objects have unique keys), strings expose `length`, everything else yields
`undefined`.  (`null` and `undefined` are never indexed by the path getter
because they are falsy.) -/
def JSVal.idx : JSVal → String → JSVal
  | .obj fs, k => ((fs.lookup k).getD .undefV)
  | .str s, k => if k = "length" then .num s.length else .undefV
  | _, _ => .undefV

/-- Splits a string at every occurrence of the character `c`
(JS `String.prototype.split` with a one-character separator). -/
def splitOnChar (c : Char) (s : String) : List String :=
  (s.data.splitOn c).map List.asString

/-- `s.startsWith(pre)` on strings. -/
def strStartsWith (s pre : String) : Bool :=
  pre.data.isPrefixOf s.data

/-- `makePathGetter` from `src/lib/query.js`: break the dotted path into keys
and resolve it by `keys.reduce((val, key) => val && val[key], obj)`.  Note the
JS `&&`: a falsy intermediate value is returned as is (not replaced by
`undefined`). -/
def getPath (path : String) (o : JSVal) : JSVal :=
  (splitOnChar '.' path).foldl (fun val key => if val.truthy then val.idx key else val) o

/-- `ToNumber` applied to a string: optional ASCII whitespace, optional sign,
decimal digits.  `none` stands for `NaN`.  The empty (or all-whitespace)
string converts to `0`.  (Only integer numerals are modelled; the parameter
values exercised by the evaluator are integers.) -/
def jsToNumS (s : String) : Option Int :=
  let ws : Char → Bool := fun c => c = ' ' ∨ c = '\t' ∨ c = '\n' ∨ c = '\r'
  let l := ((s.data.dropWhile ws).reverse.dropWhile ws).reverse
  match l with
  | [] => some 0
  | '-' :: ds => (digitsVal ds).map (fun n => -(n : Int))
  | '+' :: ds => (digitsVal ds).map (fun n => (n : Int))
  | ds => (digitsVal ds).map (fun n => (n : Int))
where
  /-- Value of a nonempty all-digit string, `none` otherwise. -/
  digitsVal (l : List Char) : Option Nat :=
    if l.isEmpty then none
    else l.foldl (fun acc c =>
      match acc with
      | none => none
      | some n => if c.isDigit then some (n * 10 + (c.toNat - 48)) else none) (some 0)

/-- `ToPrimitive` with number hint on the embedded values: a plain object
stringifies to `"[object Object]"`, every other value is already primitive. -/
def toPrim : JSVal → JSVal
  | .obj _ => .str "[object Object]"
  | v => v

/-- `ToNumber` of a primitive value (`none` = `NaN`). -/
def toNumV : JSVal → Option Int
  | .undefV => none
  | .jsNull => some 0
  | .bool b => some (if b then 1 else 0)
  | .num n => some n
  | .str s => jsToNumS s
  | .obj _ => none

/-- Strict lexicographic order on strings (JS `a < b` for strings, and the
store's key comparator `indexedDB.cmp` restricted to string keys).  This is
exactly `String`'s `<`, computed on the character lists so that it reduces
in the kernel. -/
def strLt (s t : String) : Bool := decide (s.data < t.data)

/-- The smaller of two keys under `strLt`, keeping the left one on ties. -/
def keyMin (a b : String) : String := if strLt b a then b else a

/-- ECMAScript abstract relational comparison `a < b`:
`some r` is the boolean outcome, `none` means `undefined` (a `NaN` was
involved).  If both operands convert to strings the comparison is
lexicographic, otherwise numeric. -/
def jsLtOp (a b : JSVal) : Option Bool :=
  match toPrim a, toPrim b with
  | .str s, .str t => some (strLt s t)
  | pa, pb =>
    match toNumV pa, toNumV pb with
    | some x, some y => some (decide (x < y))
    | _, _ => none

/-- JS `a < b` (an undefined comparison yields `false`). -/
def jsLt (a b : JSVal) : Bool := (jsLtOp a b).getD false

/-- JS `a > b`. -/
def jsGt (a b : JSVal) : Bool := (jsLtOp b a).getD false

/-- JS `a >= b` (`!(a < b)`, but `false` when the comparison is undefined). -/
def jsGe (a b : JSVal) : Bool :=
  match jsLtOp a b with
  | none => false
  | some t => !t

/-- JS `a <= b`. -/
def jsLe (a b : JSVal) : Bool :=
  match jsLtOp b a with
  | none => false
  | some t => !t

/-- JS string coercion `'' + v`. -/
def jsToString : JSVal → String
  | .undefV => "undefined"
  | .jsNull => "null"
  | .bool b => if b then "true" else "false"
  | .num n => toString n
  | .str s => s
  | .obj _ => "[object Object]"

/-- `strLe a b` holds when `a` precedes or equals `b`; written as the source
does, through the negation of the strict comparison. -/
def strLe (a b : String) : Bool := !(strLt b a)

/-- A position of an IndexedDB cursor: the cursor's current key (`cursor.key`:
the primary key for object-store cursors, the index key for index cursors)
together with the primary key of the pointed record (`cursor.primaryKey`). -/
structure Row where
  key : String
  pk : String
deriving DecidableEq, Repr

/-- The `mode` field a `Query` object ends up with after `initKeyRange` /
`openCursor`: `'value'`, `'range'`, `'prefix'` or `'scan'`. -/
inductive CMode where
  | valueMode : CMode
  | rangeMode : CMode
  | pfxMode : CMode
  | scanMode : CMode
deriving DecidableEq, Repr

/-- The `term` passed when opening a cursor: a plain key or an `IDBKeyRange`
(`bound`, `lowerBound`, `upperBound`; all inclusive). -/
inductive Term where
  | value (v : String) : Term
  | bound (lo hi : String) : Term
  | lower (lo : String) : Term
  | upper (hi : String) : Term
deriving DecidableEq, Repr

/-- The row filter selected by `ScanQuery.initScanMatch`. -/
inductive SFilter where
  | range (f t : String) : SFilter
  | lower (f : String) : SFilter
  | upper (t : String) : SFilter
  | starts (p : String) : SFilter
  | eqv (v : String) : SFilter
deriving DecidableEq, Repr

/-- A query descriptor as produced by the `QueryCursors` constructor: either a
keyed query (`PKQuery` when `onIndex = false`, `IndexQuery` when `true`) whose
key range has been initialized, or a `ScanQuery` holding a row filter.
`fields` records the dynamic `this[test] = value` assignments. -/
inductive QDesc where
  | keyed (onIndex : Bool) (index : String) (fields : List (String × String))
      (mode : CMode) (term : Term) : QDesc
  | scanned (path : String) (fields : List (String × String)) (filter : SFilter) : QDesc
deriving DecidableEq, Repr

/-- The `index` property of a query object (for a `ScanQuery` it is the dotted
property path being tested). -/
def QDesc.qIndex : QDesc → String
  | .keyed _ i _ _ _ => i
  | .scanned p _ _ => p

/-- Reading a test property (`query[name]`) off a query object;
`none` plays `undefined`. -/
def QDesc.getField : QDesc → String → Option String
  | .keyed _ _ fs _ _, n => fs.lookup n
  | .scanned _ fs _, n => fs.lookup n

/-- JS truthiness of a possibly-undefined string property. -/
def truthyF : Option String → Bool
  | none => false
  | some s => s != ""

/-- The error thrown by both `initKeyRange` and `initScanMatch` when none of
the four test properties is (truthily) set. -/
def illegalMsg : String := "Illegal query state: None of [ from, to, prefix, value ] set"

/-- `Query.initKeyRange` from the source: choose the cursor mode and the
`IDBKeyRange` term from whichever of `from`/`to`/`prefix`/`value` are set
(JS truthiness: an empty string does not count as set). -/
def initKeyRange (fields : List (String × String)) : Except String (CMode × Term) :=
  if truthyF (fields.lookup "from") ∧ truthyF (fields.lookup "to") then
    .ok (.rangeMode, .bound ((fields.lookup "from").getD "") ((fields.lookup "to").getD ""))
  else if truthyF (fields.lookup "from") then
    .ok (.rangeMode, .lower ((fields.lookup "from").getD ""))
  else if truthyF (fields.lookup "to") then
    .ok (.rangeMode, .upper ((fields.lookup "to").getD ""))
  else if truthyF (fields.lookup "prefix") then
    .ok (.pfxMode, .lower ((fields.lookup "prefix").getD ""))
  else if truthyF (fields.lookup "value") then
    .ok (.valueMode, .value ((fields.lookup "value").getD ""))
  else .error illegalMsg

/-- `ScanQuery.initScanMatch` from the source: choose the per-row filter from
whichever of `from`/`to`/`prefix`/`value` are set, with the same precedence
and the same error as `initKeyRange`. -/
def initScanMatch (fields : List (String × String)) : Except String SFilter :=
  if truthyF (fields.lookup "from") ∧ truthyF (fields.lookup "to") then
    .ok (.range ((fields.lookup "from").getD "") ((fields.lookup "to").getD ""))
  else if truthyF (fields.lookup "from") then
    .ok (.lower ((fields.lookup "from").getD ""))
  else if truthyF (fields.lookup "to") then
    .ok (.upper ((fields.lookup "to").getD ""))
  else if truthyF (fields.lookup "prefix") then
    .ok (.starts ((fields.lookup "prefix").getD ""))
  else if truthyF (fields.lookup "value") then
    .ok (.eqv ((fields.lookup "value").getD ""))
  else .error illegalMsg

/-- Evaluating a scan filter on a record: the comparisons of `initScanMatch`,
with `get = makePathGetter(index)`.  Note `prefixFilter` stringifies the
looked-up value (`'' + value`) before testing `startsWith`, and `valueFilter`
uses strict equality against the (string) parameter value. -/
def scanEval (sf : SFilter) (path : String) (row : JSVal) : Bool :=
  match sf with
  | .range f t => jsGe (getPath path row) (.str f) && jsLe (getPath path row) (.str t)
  | .lower f => jsGe (getPath path row) (.str f)
  | .upper t => jsLe (getPath path row) (.str t)
  | .starts p => strStartsWith (jsToString (getPath path row)) p
  | .eqv v =>
    match getPath path row with
    | .str s => s == v
    | _ => false

/-- The store connection handed to `QueryCursors`: the primary key path, the
declared indexes (name ↦ key path) and the stored records, which the store
keeps sorted in ascending primary-key order. -/
structure StoreCx where
  keyPath : String
  indexes : List (String × String)
  rows : List JSVal

/-- Key-path evaluation as the store performs it when indexing a record
(a plain structural walk; no truthiness short-circuit). -/
def recValueAt (path : String) (r : JSVal) : JSVal :=
  (splitOnChar '.' path).foldl (fun v k => v.idx k) r

/-- The string form of a stored key (the embedded stores are string-keyed). -/
def strOf : JSVal → String
  | .str s => s
  | _ => ""

/-- The primary key of a record under the store's key path. -/
def StoreCx.pkOf (cx : StoreCx) (r : JSVal) : String := strOf (recValueAt cx.keyPath r)

/-- The paired-test map of the `QueryCursors` constructor.  In the source it
is built as `const to = 'to', from = 'from'; const testPairs = { to, from }`,
i.e. shorthand for `{ to: 'to', from: 'from' }` — each test name is paired
with itself. -/
def testPairs (test : String) : Option String :=
  if test = "to" then some "to"
  else if test = "from" then some "from"
  else none

/-- JS property assignment `query[test] = value` on the dynamic fields. -/
def setTest (test v : String) : QDesc → QDesc
  | .keyed oi i fs m t =>
    .keyed oi i (if (fs.lookup test).isSome
      then fs.map (fun kv => if kv.1 = test then (kv.1, v) else kv)
      else fs ++ [(test, v)]) m t
  | .scanned p fs f =>
    .scanned p (if (fs.lookup test).isSome
      then fs.map (fun kv => if kv.1 = test then (kv.1, v) else kv)
      else fs ++ [(test, v)]) f

/-- Replace the first list element satisfying `p` by its image under `f`
(the effect of mutating the result of `Array.prototype.find`). -/
def updateFirst (p : QDesc → Bool) (f : QDesc → QDesc) : List QDesc → List QDesc
  | [] => []
  | q :: qs => if p q then f q :: qs else q :: updateFirst p f qs

/-- Constructing a single query object (`new PKQuery / IndexQuery / ScanQuery`):
classify the target against the store's key path and declared index names,
then initialize the key range (keyed queries) or the scan filter. -/
def mkOneQuery (cx : StoreCx) (index test v : String) : Except String QDesc :=
  if index = cx.keyPath then
    match initKeyRange [(test, v)] with
    | .error e => .error e
    | .ok (m, t) => .ok (.keyed false index [(test, v)] m t)
  else if (cx.indexes.lookup index).isSome then
    match initKeyRange [(test, v)] with
    | .error e => .error e
    | .ok (m, t) => .ok (.keyed true index [(test, v)] m t)
  else
    match initScanMatch [(test, v)] with
    | .error e => .error e
    | .ok f => .ok (.scanned index [(test, v)] f)

/-- `key.split('$')` destructured into `[index, test]`, with the test name
defaulting to `value` when absent or empty (`!test`). -/
def splitKey (key : String) : String × String :=
  let parts := splitOnChar '$' key
  (parts.headD "",
    match parts.get? 1 with
    | none => "value"
    | some t => if t = "" then "value" else t)

/-- The `find` predicate of the pairing branch:
`query.index === index && query[pair] !== undefined && query[test] === undefined`. -/
def mergePred (index test : String) (q : QDesc) : Bool :=
  match testPairs test with
  | some pair =>
    (q.qIndex == index) && (q.getField pair).isSome && (q.getField test).isNone
  | none => false

/-- The parameter-rewriting loop of the `QueryCursors` constructor.  Keys
beginning with `$` are control parameters and are skipped.  Other keys split
on the first `$` into target and test (`value` when absent or empty).  For a
paired test (`from`/`to`) the constructor looks for an existing query to merge
into; because `testPairs` pairs each test with itself, the `find` predicate
demands the same property to be simultaneously set and unset, so the merge
branch never fires and a fresh query object is always created. -/
def mkQueriesGo (cx : StoreCx) : List (String × String) → List QDesc → Except String (List QDesc)
  | [], acc => .ok acc
  | (key, v) :: rest, acc =>
    if strStartsWith key "$" then mkQueriesGo cx rest acc
    else
      if (acc.find? (mergePred (splitKey key).1 (splitKey key).2)).isSome then
        mkQueriesGo cx rest
          (updateFirst (mergePred (splitKey key).1 (splitKey key).2)
            (setTest (splitKey key).2 v) acc)
      else
        match mkOneQuery cx (splitKey key).1 (splitKey key).2 v with
        | .error e => .error e
        | .ok qd => mkQueriesGo cx rest (acc ++ [qd])

/-- `new QueryCursors(cx, params).queries`: the list of query descriptors, or
the error thrown while constructing them.  `params` is the plain-object form
of the parameters: an association list with distinct keys, in insertion
order. -/
def mkQueries (cx : StoreCx) (params : List (String × String)) : Except String (List QDesc) :=
  mkQueriesGo cx params []

/-- Whether a key falls inside a cursor term (`IDBKeyRange` bounds are
inclusive; `none` is the `null` term of a full scan). -/
def inTerm (t : Option Term) (k : String) : Bool :=
  match t with
  | none => true
  | some (.value v) => k == v
  | some (.bound lo hi) => strLe lo k && strLe k hi
  | some (.lower lo) => strLe lo k
  | some (.upper hi) => strLe k hi

/-- Stable insertion of an index entry: the new entry goes after all existing
entries whose index key is not greater, so entries with equal index keys stay
in insertion (= ascending primary key) order. -/
def insertRow (r : Row) : List Row → List Row
  | [] => [r]
  | x :: xs => if strLe x.key r.key then x :: insertRow r xs else r :: x :: xs

/-- Stable sort of index entries by index key (the store materializes an
index in ascending (index key, primary key) order; the record list is already
in ascending primary-key order, so a stable sort by index key realizes
exactly that). -/
def sortRows (rs : List Row) : List Row :=
  rs.foldl (fun acc r => insertRow r acc) []

/-- The rows visited by a primary-key cursor opened with term `t`
(`cx.openPK(term)`): store rows in ascending primary-key order, restricted to
the term; both `cursor.key` and `cursor.primaryKey` are the primary key. -/
def selectPK (cx : StoreCx) (t : Option Term) : List Row :=
  ((cx.rows.map (fun r => Row.mk (cx.pkOf r) (cx.pkOf r))).filter (fun row => inTerm t row.key))

/-- The rows visited by an index cursor (`cx.openIndex(name, term)`): index
entries in ascending (index key, primary key) order, restricted to the term
applied to the index key; `cursor.key` is the index key, `cursor.primaryKey`
the record's primary key. -/
def selectIndex (cx : StoreCx) (name : String) (t : Option Term) : List Row :=
  let ikp := (cx.indexes.lookup name).getD ""
  (sortRows (cx.rows.map (fun r => Row.mk (strOf (recValueAt ikp r)) (cx.pkOf r)))).filter
    (fun row => inTerm t row.key)

/-- The rows surfaced by a scan query: a full primary-key sweep
(`openPK(null)`) whose `onsuccess` silently advances past rows failing the
match filter, so only matching rows (in ascending primary-key order) reach
the coordinator. -/
def selectScan (cx : StoreCx) (path : String) (sf : SFilter) : List Row :=
  ((cx.rows.filter (scanEval sf path)).map (fun r => Row.mk (cx.pkOf r) (cx.pkOf r)))

/-- The state of one query's cursor during iteration: its mode, its `prefix`
property (used by `isComplete` in prefix mode) and the rows the underlying
store cursor has yet to visit (`rows = []` plays `cursor == null`). -/
structure Cursor where
  mode : CMode
  pfx : String
  rows : List Row

/-- `Query.isComplete`: in prefix mode the cursor is complete when exhausted
or when its current key no longer starts with the prefix; in every other mode
when exhausted. -/
def Cursor.isComplete (c : Cursor) : Bool :=
  match c.mode with
  | .pfxMode =>
    match c.rows with
    | [] => true
    | r :: _ => !(strStartsWith r.key c.pfx)
  | _ => c.rows.isEmpty

/-- `Query.primaryKey`: the primary key at the cursor's current position
(only read while the cursor is live, in which case `rows` is nonempty). -/
def Cursor.primaryKey (c : Cursor) : String :=
  match c.rows with
  | [] => ""
  | r :: _ => r.pk

/-- `cursor.continue()`: move to the next row. -/
def Cursor.advance (c : Cursor) : Cursor :=
  { c with rows := c.rows.tail }

/-- `Query.openCursor` on a descriptor: build the cursor over the store.
A `ScanQuery` sets `this.mode = 'scan'` and opens an unrestricted primary-key
cursor. -/
def openCursor (cx : StoreCx) : QDesc → Cursor
  | .keyed false _ fs m t => ⟨m, (fs.lookup "prefix").getD "", selectPK cx (some t)⟩
  | .keyed true i fs m t => ⟨m, (fs.lookup "prefix").getD "", selectIndex cx i (some t)⟩
  | .scanned p fs sf => ⟨.scanMode, (fs.lookup "prefix").getD "", selectScan cx p sf⟩

/-- The active (not complete) cursors, in construction order (the order is
only used through the stable sort below). -/
def activeCursors (qs : List Cursor) : List Cursor :=
  qs.filter (fun c => !c.isComplete)

/-- The lowest primary key among the active cursors: after the stable
ascending sort in `QueryCursors.increment`, this is `cursors[0].primaryKey`. -/
def minActivePk (qs : List Cursor) : String :=
  match (activeCursors qs).map Cursor.primaryKey with
  | [] => ""
  | p :: ps => ps.foldl keyMin p

/-- Advance the first active cursor holding primary key `p` (after the stable
sort, `cursors[0]` is the earliest-constructed active cursor carrying the
minimal primary key; `continueLowest` advances exactly that cursor). -/
def advanceFirstWithPk (p : String) : List Cursor → List Cursor
  | [] => []
  | c :: cs =>
    if !c.isComplete && c.primaryKey == p then c.advance :: cs
    else c :: advanceFirstWithPk p cs

/-- `continueLowest`: advance the active cursor with the lowest primary key. -/
def continueLowest (qs : List Cursor) : List Cursor :=
  advanceFirstWithPk (minActivePk qs) qs

/-- `continueAll`: advance every active cursor (each `cursor.continue()` acts
on its own cursor, so the batch is order-independent). -/
def continueAll (qs : List Cursor) : List Cursor :=
  qs.map (fun c => if c.isComplete then c else c.advance)

/-- `allKeysMatch`: all active cursors point at the same primary key (over
the sorted active list the adjacent comparisons amount to this; true when at
most one cursor is active). -/
def allKeysMatch (qs : List Cursor) : Bool :=
  (activeCursors qs).all (fun c => c.primaryKey == minActivePk qs)

/-- One call of `QueryCursors.increment($join)`: the optional matched key,
the cursor states after the issued `continue()`s, and `expect` (how many
cursors were asked to advance; `0` signals completion).  An unknown join
throws `Bad query join`. -/
def stepJoin (join : String) (qs : List Cursor) :
    Except String (Option String × List Cursor × Nat) :=
  if join = "or" then
    if (activeCursors qs).isEmpty then .ok (none, qs, 0)
    else .ok (some (minActivePk qs), continueLowest qs, 1)
  else if join = "and" then
    if (activeCursors qs).length < qs.length then .ok (none, qs, 0)
    else if allKeysMatch qs then
      .ok (some (minActivePk qs), continueAll qs, (activeCursors qs).length)
    else .ok (none, continueLowest qs, 1)
  else .error ("Bad query join: '" ++ join ++ "'")

/-- `!$from || count >= $from` — the push guard of the `onsuccess` handler.
Parameter values arrive as strings; `>=` coerces via `ToNumber` (a
non-numeric `$from` makes the guard permanently false). -/
def pushCond (fromS : Option String) (count : Nat) : Bool :=
  !truthyF fromS ||
    (match fromS with
     | some s =>
       match jsToNumS s with
       | some v => decide (v ≤ (count : Int))
       | none => false
     | none => true)

/-- `$to && count > $to` — the upper-offset termination guard. -/
def toStop (toS : Option String) (count : Nat) : Bool :=
  truthyF toS &&
    (match toS with
     | some s =>
       match jsToNumS s with
       | some v => decide (v < (count : Int))
       | none => false
     | none => false)

/-- `$limit && results.length == $limit` — the limit termination guard
(loose equality: the length is compared with `ToNumber($limit)`). -/
def limStop (limS : Option String) (len : Nat) : Bool :=
  truthyF limS &&
    (match limS with
     | some s =>
       match jsToNumS s with
       | some v => decide ((len : Int) = v)
       | none => false
     | none => false)

/-- The match-recording block of the `onsuccess` handler: when the matched
key is truthy and differs from the previous match, push it (unless still
below the `$from` offset), bump `count` and remember it as the previous key;
otherwise leave the state unchanged.  Returns `(results, count, prevKey)`. -/
def stepEmit (fromS : Option String) (match? : Option String) (prevKey : Option String)
    (count : Nat) (res : List String) : List String × Nat × Option String :=
  match match? with
  | some m =>
    if m ≠ "" ∧ some m ≠ prevKey then
      ((if pushCond fromS count then res ++ [m] else res), count + 1, some m)
    else (res, count, prevKey)
  | none => (res, count, prevKey)

/-- The merge-join iteration: each round with `pending = 0` increments the
cursors, possibly records the match (when truthy and different from the
previous match), applies the `$from`/`$to`/`$limit` logic and either resolves
or waits for the next `expect` cursor callbacks.  `fuel` bounds the number of
rounds; every non-final round advances at least one cursor past one row, so
`queryKeys` passes fuel that cannot run out. -/
def runLoop (join : String) (fromS toS limS : Option String) :
    Nat → List Cursor → Option String → Nat → List String → Except String (List String)
  | 0, _, _, _, res => .ok res
  | fuel + 1, qs, prevKey, count, res =>
    match stepJoin join qs with
    | .error e => .error e
    | .ok (match?, qs', expect) =>
      match stepEmit fromS match? prevKey count res with
      | (res', count', prev') =>
        if expect = 0 then .ok res'
        else if toStop toS count' then .ok res'
        else if limStop limS res'.length then .ok res'
        else runLoop join fromS toS limS fuel qs' prev' count' res'

/-- Fuel that dominates the number of loop rounds: one more than the total
number of cursor rows. -/
def totalFuel (cs : List Cursor) : Nat :=
  (cs.map (fun c => c.rows.length)).sum + 1

/-- `$join` as destructured in `query` (defaulting to `'and'` only when the
property is absent). -/
def joinOf (params : List (String × String)) : String :=
  (params.lookup "$join").getD "and"

/-- The key list resolved by the cursor-iteration promise in `query`: null
queries short-circuit to `[]` before any cursor is opened; otherwise the
cursors are opened and the merge loop runs. -/
def queryKeys (cx : StoreCx) (params : List (String × String)) :
    Except String (List String) :=
  match mkQueries cx params with
  | .error e => .error e
  | .ok qs =>
    if qs.isEmpty then .ok []
    else
      let cs := qs.map (openCursor cx)
      runLoop (joinOf params) (params.lookup "$from") (params.lookup "$to")
        (params.lookup "$limit") (totalFuel cs) cs none 0 []

/-- `cx.read(key)` during materialization: the stored record, or `undefined`
when the key is missing. -/
def readRec (cx : StoreCx) (k : String) : JSVal :=
  match cx.rows.find? (fun r => cx.pkOf r == k) with
  | some r => r
  | none => .undefV

/-- The comparator returned by `comparator($orderBy)`: compare two records by
the JS relational operators on the value at the path. -/
def cmpPath (path : String) (o1 o2 : JSVal) : Int :=
  if jsLt (getPath path o1) (getPath path o2) then -1
  else if jsGt (getPath path o1) (getPath path o2) then 1
  else 0

/-- Stable insertion used to model `Array.prototype.sort` (which is stable):
an element is placed after every earlier element the comparator does not
order strictly after it. -/
def insertByCmp (cmp : JSVal → JSVal → Int) (r : JSVal) : List JSVal → List JSVal
  | [] => [r]
  | x :: xs => if cmp x r ≤ 0 then x :: insertByCmp cmp r xs else r :: x :: xs

/-- Stable sort by a JS comparator. -/
def sortByCmp (cmp : JSVal → JSVal → Int) (l : List JSVal) : List JSVal :=
  l.foldl (fun acc r => insertByCmp cmp r acc) []

/-- A query result: a list of records, a list of primary keys, or a lookup
map (modelled as the association list `key ↦ record` built in key order). -/
inductive QueryResult where
  | records (objs : List JSVal) : QueryResult
  | keys (ks : List String) : QueryResult
  | lookup (m : List (String × JSVal)) : QueryResult

/-- Result formatting at the tail of `query`: `$format == 'keys'` returns the
key list as is (before any record is read and ignoring `$orderBy`); otherwise
every record is read; `$format == 'lookup'` builds the key ↦ record map; the
default shape is the record list, sorted by `comparator($orderBy)` when
`$orderBy` is truthy. -/
def formatResult (cx : StoreCx) (params : List (String × String))
    (ks : List String) : QueryResult :=
  if params.lookup "$format" = some "keys" then .keys ks
  else
    let objs := ks.map (readRec cx)
    if params.lookup "$format" = some "lookup" then .lookup (ks.zip objs)
    else
      match params.lookup "$orderBy" with
      | some ob => if ob ≠ "" then .records (sortByCmp (cmpPath ob) objs) else .records objs
      | none => .records objs

/-- The whole of `query(schema, store, params)` over the plain-object
parameter form: construct the cursors, run the merge (or short-circuit a null
query), format.  A thrown construction error is reported as `.error` (in the
JS it escapes the `async` promise executor, so the promise never settles;
either way the query yields no result). -/
def runQuery (cx : StoreCx) (params : List (String × String)) :
    Except String QueryResult :=
  match queryKeys cx params with
  | .error e => .error e
  | .ok ks => .ok (formatResult cx params ks)

/-- `URLSearchParams` parsing of a query string (percent-decoding and `+`
translation are not modelled; the embedded inputs use none): `&`-separated
nonempty segments, each split at its first `=` (a segment without `=` maps to
the empty value). -/
def parseQS (s : String) : List (String × String) :=
  ((splitOnChar '&' s).filter (fun seg => seg ≠ "")).map fun seg =>
    match seg.data.splitOn '=' with
    | [] => ("", "")
    | n :: rest => (n.asString, (String.intercalate "=" (rest.map List.asString)))

/-- The `URLSearchParams → plain object` conversion at the top of `query`:
`for (const key of params.keys()) _params[key] = params.get(key)`.
`keys()` yields one key per pair (duplicates included) and `get` returns the
value of the key's *first* occurrence, so the object maps each distinct key,
in first-occurrence order, to its first value. -/
def objFromPairs (prs : List (String × String)) : List (String × String) :=
  prs.foldl (fun acc kv =>
    if (acc.lookup kv.1).isSome then acc
    else acc ++ [(kv.1, (prs.lookup kv.1).getD "")]) []

/-- Parameters as `query` sees them when handed a query string. -/
def paramsOfString (s : String) : List (String × String) :=
  objFromPairs (parseQS s)

deriving instance DecidableEq for Except

/-- A record carrying only a primary key. -/
def mkRec (pk : String) : JSVal := .obj [("pk", .str pk)]

/-- An empty store keyed on `pk` with no indexes. -/
def cxPlain : StoreCx := { keyPath := "pk", indexes := [], rows := [] }

/-- A store with the single record `{pk: 'a'}`. -/
def cxOne : StoreCx := { keyPath := "pk", indexes := [], rows := [mkRec "a"] }

/-- A store with records `{pk: 'a'}`, `{pk: 'b'}`, `{pk: 'c'}`. -/
def cxABC : StoreCx :=
  { keyPath := "pk", indexes := [], rows := [mkRec "a", mkRec "b", mkRec "c"] }

/-- A store whose secondary index `group` orders its records opposite to
their primary-key order: `{pk:'a', group:'2'}` and `{pk:'b', group:'1'}`. -/
def cxOrDup : StoreCx :=
  { keyPath := "pk", indexes := [("group", "group")],
    rows := [.obj [("pk", .str "a"), ("group", .str "2")],
             .obj [("pk", .str "b"), ("group", .str "1")]] }

/-- A store whose records' `value.title` order is opposite to their
primary-key order. -/
def cxTitles : StoreCx :=
  { keyPath := "pk", indexes := [],
    rows := [.obj [("pk", .str "a"), ("value", .obj [("title", .str "z")])],
             .obj [("pk", .str "b"), ("value", .obj [("title", .str "a")])]] }

/-- Stable insertion of a key ordered by the comparator on the referenced
records (used only by the spec-side definition below). -/
def insertKeyByPath (cx : StoreCx) (path : String) (k : String) :
    List String → List String
  | [] => [k]
  | x :: xs =>
    if cmpPath path (readRec cx x) (readRec cx k) ≤ 0 then x :: insertKeyByPath cx path k xs
    else k :: x :: xs

/-- Modelled from the spec: "`$format=keys`: ... if `$orderBy` is set, read
each record, sort by `orderBy` path value using a natural ordering ..., and
return the reordered keys."  This is the behaviour the spec promises for
`$format=keys` with `$orderBy`; it exists only to be compared against what
the implementation returns. -/
def specOrderKeysByPath (cx : StoreCx) (path : String) (ks : List String) :
    List String :=
  ks.foldl (fun acc k => insertKeyByPath cx path k acc) []

/-- The single fold step of `objFromPairs`, named so the proofs below can
speak about it. -/
def objStep (prs : List (String × String)) (acc : List (String × String))
    (kv : String × String) : List (String × String) :=
  if (acc.lookup kv.1).isSome then acc
  else acc ++ [(kv.1, (prs.lookup kv.1).getD "")]

/-- The empty result in each output format (an empty lookup is the empty
association map). -/
def emptyResultOf (params : List (String × String)) : QueryResult :=
  if params.lookup "$format" = some "keys" then .keys []
  else if params.lookup "$format" = some "lookup" then .lookup []
  else .records []

theorem strLt_iff {s t : String} : strLt s t = true ↔ s < t := by
  rw [String.lt_iff_toList_lt]
  simp [strLt, String.toList]

theorem strLt_eq_false_iff {s t : String} : strLt s t = false ↔ t ≤ s := by
  rw [← Bool.not_eq_true, strLt_iff, not_lt]

theorem strLe_iff {s t : String} : strLe s t = true ↔ s ≤ t := by
  simp [strLe, strLt_eq_false_iff]

theorem keyMin_eq_min (a b : String) : keyMin a b = min a b := by
  unfold keyMin
  rcases h : strLt b a with _ | _
  · rw [strLt_eq_false_iff] at h
    simp [min_eq_left h]
  · rw [strLt_iff] at h
    simp [min_eq_right h.le]

/-- C2: evaluating the predicate parser at the failing input
`name$from=a & name$to=b` (a store keyed on `pk`, no index named `name`).
The claim — and the spec's pairing rule — promise one predicate
`Range(a, b)` bounded on both sides; the constructor instead produces two
separate half-open predicates (a lower-bound scan and an upper-bound scan),
because `testPairs` maps each of `to`/`from` to itself, so the merge
condition `query[pair] !== undefined && query[test] === undefined` is
unsatisfiable and the pairing branch is dead code. -/
theorem c2_pairing_never_fires :
    mkQueries cxPlain [("name$from", "a"), ("name$to", "b")] =
      .ok [.scanned "name" [("from", "a")] (.lower "a"),
           .scanned "name" [("to", "b")] (.upper "b")] := by decide

/-- C3 counterexample: for the query string `a=1&a=2` the parameter object
maps `a` to `"1"` — the value of the *first* occurrence — whereas the claim
says the last occurrence (`"2"`) is used. -/
theorem c3_counterexample :
    paramsOfString "a=1&a=2" = [("a", "1")] ∧ ("1" : String) ≠ "2" := by decide

/-- `List.lookup` distributes over append, preferring the left list. -/
theorem lookup_append (l₁ l₂ : List (String × String)) (k : String) :
    (l₁ ++ l₂).lookup k =
      match l₁.lookup k with
      | some v => some v
      | none => l₂.lookup k := by
  induction l₁ with
  | nil => simp
  | cons kv l ih =>
    obtain ⟨k', v'⟩ := kv
    rw [List.cons_append, List.lookup_cons, List.lookup_cons]
    cases h : k == k' <;> simp [ih]

theorem objFromPairs_eq_foldl (prs : List (String × String)) :
    objFromPairs prs = prs.foldl (objStep prs) [] := rfl

theorem lookup_of_mem (l : List (String × String)) (kv : String × String)
    (h : kv ∈ l) : ∃ v, l.lookup kv.1 = some v := by
  induction l with
  | nil => cases h
  | cons x xs ih =>
    obtain ⟨a, b⟩ := x
    rw [List.lookup_cons]
    cases hbe : kv.1 == a
    · rcases List.mem_cons.mp h with he | hm
      · exfalso
        rw [he] at hbe
        simp at hbe
      · simpa [hbe] using ih hm
    · exact ⟨b, by simp⟩

theorem objStep_lookup (prs acc : List (String × String)) (kv : String × String)
    (hkv : ∃ v, prs.lookup kv.1 = some v) (k : String) :
    (objStep prs acc kv).lookup k =
      match acc.lookup k with
      | some v => some v
      | none => if kv.1 == k then prs.lookup kv.1 else none := by
  unfold objStep
  cases hacc : acc.lookup kv.1 with
  | some v =>
    simp only [hacc, Option.isSome_some, if_true]
    cases hk : acc.lookup k with
    | some w => simp
    | none =>
      cases hbe : kv.1 == k
      · simp
      · exfalso
        have heq : kv.1 = k := by simpa using hbe
        rw [heq, hk] at hacc
        exact Option.noConfusion hacc
  | none =>
    simp only [hacc, Option.isSome_none, Bool.false_eq_true, if_false]
    rw [lookup_append]
    cases hk : acc.lookup k with
    | some w => simp
    | none =>
      simp only []
      cases hbe : kv.1 == k
      · have hbe' : (k == kv.1) = false := by
          cases h2 : k == kv.1
          · rfl
          · exfalso
            have : k = kv.1 := by simpa using h2
            rw [this] at hbe
            simp at hbe
        simp [List.lookup_cons, hbe', hbe]
      · have heq : kv.1 = k := by simpa using hbe
        obtain ⟨v, hv⟩ := hkv
        have hbe' : (k == kv.1) = true := by simp [heq]
        subst heq
        simp [List.lookup_cons, hbe', hv]

theorem objFold_lookup (prs : List (String × String)) :
    ∀ (l acc : List (String × String)),
      (∀ kv ∈ l, ∃ v, prs.lookup kv.1 = some v) →
      ∀ k, (l.foldl (objStep prs) acc).lookup k =
        match acc.lookup k with
        | some v => some v
        | none => if l.any (fun kv => kv.1 == k) then prs.lookup k else none := by
  intro l
  induction l with
  | nil =>
    intro acc _ k
    cases h : acc.lookup k <;> simp [h]
  | cons kv rest ih =>
    intro acc hmem k
    rw [List.foldl_cons, ih _ (fun x hx => hmem x (List.mem_cons_of_mem kv hx)) k,
      objStep_lookup prs acc kv (hmem kv (List.mem_cons_self kv rest)) k]
    cases hk : acc.lookup k with
    | some v => simp
    | none =>
      simp only []
      cases hbe : kv.1 == k
      · show (if (rest.any fun kv => kv.1 == k) = true then List.lookup k prs else none) =
          if ((kv :: rest).any fun kv => kv.1 == k) = true then List.lookup k prs else none
        rw [List.any_cons, hbe, Bool.false_or]
      · have heq : kv.1 = k := by simpa using hbe
        obtain ⟨v, hv⟩ := hmem kv (List.mem_cons_self kv rest)
        rw [heq] at hv
        rw [heq]
        simp only [List.any_cons, hbe]
        rw [hv]
        simp

theorem any_key_of_lookup (l : List (String × String)) (k : String) (v : String)
    (h : l.lookup k = some v) : l.any (fun kv => kv.1 == k) = true := by
  induction l with
  | nil => simp [List.lookup] at h
  | cons x xs ih =>
    obtain ⟨a, b⟩ := x
    rw [List.lookup_cons] at h
    cases hbe : k == a
    · rw [hbe] at h
      rw [List.any_cons]
      simp only [ih h, Bool.or_true]
    · have heq : k = a := by simpa using hbe
      rw [List.any_cons]
      have : (a == k) = true := by simp [heq]
      simp [this]

/-- C3 amended: when the `params` argument is a URL-encoded query string and
a key occurs more than once, the value used is that of its *first*
occurrence (`URLSearchParams.get` returns the first value for a key):
looking a key up in the resulting parameter object agrees with looking it up
in the raw pair list, which returns the first match. -/
theorem c3_first_occurrence_wins (s : String) (k : String) :
    (paramsOfString s).lookup k = (parseQS s).lookup k := by
  have hmem : ∀ kv ∈ parseQS s, ∃ v, (parseQS s).lookup kv.1 = some v :=
    fun kv hkv => lookup_of_mem (parseQS s) kv hkv
  have hfold := objFold_lookup (parseQS s) (parseQS s) [] hmem k
  unfold paramsOfString objFromPairs
  rw [show (fun (acc : List (String × String)) kv =>
      if (acc.lookup kv.1).isSome then acc
      else acc ++ [(kv.1, ((parseQS s).lookup kv.1).getD "")]) = objStep (parseQS s) from rfl]
  rw [hfold]
  cases hk : (parseQS s).lookup k with
  | some v =>
    simp only [List.lookup_nil]
    rw [any_key_of_lookup (parseQS s) k v hk]
    simp [hk]
  | none =>
    simp only [List.lookup_nil]
    cases hany : (parseQS s).any (fun kv => kv.1 == k) <;> simp [hk]

theorem mkQueriesGo_all_control (cx : StoreCx) :
    ∀ (l : List (String × String)) (acc : List QDesc),
      (∀ kv ∈ l, strStartsWith kv.1 "$" = true) →
      mkQueriesGo cx l acc = .ok acc := by
  intro l
  induction l with
  | nil => intro acc _; rfl
  | cons kv rest ih =>
    intro acc h
    obtain ⟨k, v⟩ := kv
    unfold mkQueriesGo
    rw [if_pos (h (k, v) (List.mem_cons_self _ _))]
    exact ih acc (fun x hx => h x (List.mem_cons_of_mem _ hx))

/-- C4: a parameter set with no non-control (non-`$`-prefixed) entries is a
null query: no cursor descriptor is built (the evaluator resolves before
opening any cursor) and the result is empty in every `$format` — the empty
key list, the empty record list, or the empty lookup map. -/
theorem c4_null_query_is_empty (cx : StoreCx) (params : List (String × String))
    (h : ∀ kv ∈ params, strStartsWith kv.1 "$" = true) :
    mkQueries cx params = .ok [] ∧
    runQuery cx params = .ok (emptyResultOf params) := by
  have hmk : mkQueries cx params = .ok [] := mkQueriesGo_all_control cx params [] h
  refine ⟨hmk, ?_⟩
  unfold runQuery queryKeys
  rw [hmk]
  simp only [List.isEmpty_nil, if_true]
  unfold formatResult emptyResultOf
  by_cases hk : params.lookup "$format" = some "keys"
  · simp [hk]
  · rw [if_neg hk, if_neg hk]
    by_cases hl : params.lookup "$format" = some "lookup"
    · simp [hl]
    · rw [if_neg hl, if_neg hl]
      cases ho : params.lookup "$orderBy" with
      | none => simp
      | some ob =>
        by_cases hob : ob = ""
        · subst hob; simp
        · simp [hob, sortByCmp]

/-- C4 witness: the null query `{$format: lookup, $join: zzz}` on the empty
store yields no cursor and an empty lookup map. -/
theorem c4_witness :
    mkQueries cxPlain [("$format", "lookup"), ("$join", "zzz")] = .ok [] ∧
    runQuery cxPlain [("$format", "lookup"), ("$join", "zzz")] = .ok (.lookup []) :=
  c4_null_query_is_empty cxPlain [("$format", "lookup"), ("$join", "zzz")] (by decide)

/-- C5 amended: with `$format=keys` the query returns exactly the merge-order
key list — `$orderBy` is ignored and no record is read (the keys branch
returns before `readAll`). -/
theorem c5_keys_format_ignores_orderBy (cx : StoreCx) (params : List (String × String))
    (h : params.lookup "$format" = some "keys") :
    runQuery cx params = (queryKeys cx params).map QueryResult.keys := by
  unfold runQuery
  cases hq : queryKeys cx params with
  | error e => rfl
  | ok ks => simp [formatResult, h, Except.map]

/-- C5 witness: a concrete `$format=keys` query with `$orderBy` set returns
the raw merge keys. -/
theorem c5_witness :
    runQuery cxTitles [("pk$from", "a"), ("$format", "keys"), ("$orderBy", "value.title")] =
      (queryKeys cxTitles
        [("pk$from", "a"), ("$format", "keys"), ("$orderBy", "value.title")]).map
        QueryResult.keys :=
  c5_keys_format_ignores_orderBy cxTitles _ (by decide)

/-- C5 counterexample: on a store whose `value.title` values order oppositely
to the primary keys, the `$format=keys`, `$orderBy=value.title` query returns
the merge-order keys `[a, b]`; the claim — re-sorting by the record path, as
the spec-side definition computes — would give `[b, a]`. -/
theorem c5_counterexample :
    runQuery cxTitles [("pk$from", "a"), ("$format", "keys"), ("$orderBy", "value.title")] =
      .ok (.keys ["a", "b"]) ∧
    specOrderKeysByPath cxTitles "value.title" ["a", "b"] = ["b", "a"] ∧
    (["a", "b"] : List String) ≠ ["b", "a"] :=
  ⟨rfl, by decide, by decide⟩

theorem runLoop_bad_join (join : String) (hja : join ≠ "and") (hjo : join ≠ "or")
    (fromS toS limS : Option String) (fuel : Nat) (qs : List Cursor)
    (prev : Option String) (count : Nat) (res : List String) :
    runLoop join fromS toS limS (fuel + 1) qs prev count res =
      .error ("Bad query join: '" ++ join ++ "'") := by
  have hstep : stepJoin join qs = .error ("Bad query join: '" ++ join ++ "'") := by
    unfold stepJoin
    rw [if_neg hjo, if_neg hja]
  unfold runLoop
  rw [hstep]

/-- C6 amended: an unknown `$join` makes the query fail with
`Bad query join` *provided* the parameter set contains at least one
non-control parameter (so that the cursors are opened and `increment` runs);
a null query short-circuits to an empty result before `$join` is ever
inspected. -/
theorem c6_bad_join_rejects (cx : StoreCx) (params : List (String × String))
    (qs : List QDesc) (hmk : mkQueries cx params = .ok qs) (hne : qs ≠ [])
    (hja : joinOf params ≠ "and") (hjo : joinOf params ≠ "or") :
    queryKeys cx params = .error ("Bad query join: '" ++ joinOf params ++ "'") := by
  have hempty : qs.isEmpty = false := by
    cases qs
    · exact absurd rfl hne
    · rfl
  unfold queryKeys
  simp only [hmk, hempty, Bool.false_eq_true, if_false]
  unfold totalFuel
  exact runLoop_bad_join (joinOf params) hja hjo _ _ _ _ _ _ _ _

/-- C6 witness: `{pk: a, $join: xor}` on a one-record store fails with the
`Bad query join` error. -/
theorem c6_witness :
    queryKeys cxOne [("pk", "a"), ("$join", "xor")] = .error "Bad query join: 'xor'" :=
  c6_bad_join_rejects cxOne [("pk", "a"), ("$join", "xor")]
    [.keyed false "pk" [("value", "a")] .valueMode (.value "a")]
    (by decide) (by decide) (by decide) (by decide)

/-- C6 counterexample: with an unknown `$join` but no non-control parameter
the query does not fail — the null-query short-circuit resolves successfully
with an empty result before the join value is validated. -/
theorem c6_counterexample :
    runQuery cxPlain [("$join", "xor")] = .ok (.records []) := rfl

/-- C9 amended: when the dotted target path of a scan predicate resolves to
the absent sentinel (`undefined`), the `value`, `from`, `to` and `range`
comparisons are all false and the record is not matched; the `prefix`
comparison, however, first coerces the absent value to the string
`"undefined"`, so the record matches exactly when that string starts with
the requested prefix. -/
theorem c9_absent_path_comparisons (path : String) (row : JSVal)
    (f t v pre : String) (h : getPath path row = .undefV) :
    scanEval (.range f t) path row = false ∧
    scanEval (.lower f) path row = false ∧
    scanEval (.upper t) path row = false ∧
    scanEval (.eqv v) path row = false ∧
    scanEval (.starts pre) path row = strStartsWith "undefined" pre := by
  refine ⟨?_, ?_, ?_, ?_, ?_⟩ <;>
    simp [scanEval, h, jsGe, jsLe, jsLtOp, toPrim, toNumV, jsToString]

/-- C9 witness: a record without the field `a`, tested by each scan filter. -/
theorem c9_witness :
    scanEval (.range "1" "2") "a" (.obj [("x", .num 1)]) = false ∧
    scanEval (.lower "1") "a" (.obj [("x", .num 1)]) = false ∧
    scanEval (.upper "2") "a" (.obj [("x", .num 1)]) = false ∧
    scanEval (.eqv "x") "a" (.obj [("x", .num 1)]) = false ∧
    scanEval (.starts "und") "a" (.obj [("x", .num 1)]) = strStartsWith "undefined" "und" :=
  c9_absent_path_comparisons "a" (.obj [("x", .num 1)]) "1" "2" "x" "und" rfl

/-- C9 counterexample: the record `{pk: a}` has no `missing` property (the
path resolves to the absent sentinel), yet the scan predicate
`missing$prefix=und` matches it and the query returns the record's key. -/
theorem c9_counterexample :
    getPath "missing" (JSVal.obj [("pk", .str "a")]) = .undefV ∧
    queryKeys cxOne [("missing$prefix", "und")] = .ok ["a"] :=
  ⟨rfl, by decide⟩

theorem testPairs_self {t p : String} (h : testPairs t = some p) : p = t := by
  unfold testPairs at h
  by_cases h1 : t = "to"
  · rw [if_pos h1] at h
    injection h with h2
    rw [← h2, h1]
  · rw [if_neg h1] at h
    by_cases h2 : t = "from"
    · rw [if_pos h2] at h
      injection h with h3
      rw [← h3, h2]
    · rw [if_neg h2] at h
      exact absurd h (by simp)

/-- The pairing predicate is unsatisfiable: `testPairs` pairs each test with
itself, so the predicate asks for `query[test]` to be simultaneously defined
and undefined. -/
theorem mergePred_false (index test : String) (q : QDesc) :
    mergePred index test q = false := by
  unfold mergePred
  cases ht : testPairs test with
  | none => rfl
  | some pair =>
    have hpt : pair = test := testPairs_self ht
    subst hpt
    cases hg : q.getField pair
    · simp [hg]
    · simp [hg]

theorem find?_mergePred (index test : String) (acc : List QDesc) :
    acc.find? (mergePred index test) = none :=
  List.find?_eq_none.mpr (fun q _ => by rw [mergePred_false]; exact Bool.false_ne_true)

theorem truthyF_lookup_single (test n : String) :
    truthyF (List.lookup n [(test, "")]) = false := by
  rw [List.lookup_cons]
  cases h : n == test
  · rfl
  · rfl

theorem mkOneQuery_empty_value (cx : StoreCx) (index test : String) :
    mkOneQuery cx index test "" = .error illegalMsg := by
  unfold mkOneQuery initKeyRange initScanMatch
  simp [truthyF_lookup_single]

theorem initKeyRange_error {fields : List (String × String)} {e : String}
    (h : initKeyRange fields = .error e) : e = illegalMsg := by
  unfold initKeyRange at h
  split_ifs at h
  injection h with h2
  exact h2.symm

theorem initScanMatch_error {fields : List (String × String)} {e : String}
    (h : initScanMatch fields = .error e) : e = illegalMsg := by
  unfold initScanMatch at h
  split_ifs at h
  injection h with h2
  exact h2.symm

theorem mkOneQuery_error_msg {cx : StoreCx} {index test v e : String}
    (h : mkOneQuery cx index test v = .error e) : e = illegalMsg := by
  unfold mkOneQuery at h
  split at h
  · cases hik : initKeyRange [(test, v)] with
    | error e2 =>
      rw [hik] at h
      injection h with h2
      rw [← h2]
      exact initKeyRange_error hik
    | ok mt =>
      obtain ⟨m, t⟩ := mt
      rw [hik] at h
      exact absurd h (by simp)
  · split at h
    · cases hik : initKeyRange [(test, v)] with
      | error e2 =>
        rw [hik] at h
        injection h with h2
        rw [← h2]
        exact initKeyRange_error hik
      | ok mt =>
        obtain ⟨m, t⟩ := mt
        rw [hik] at h
        exact absurd h (by simp)
    · cases his : initScanMatch [(test, v)] with
      | error e2 =>
        rw [his] at h
        injection h with h2
        rw [← h2]
        exact initScanMatch_error his
      | ok sf =>
        rw [his] at h
        exact absurd h (by simp)

/-- C10: a parameter set containing a non-control entry whose value is the
empty string makes the `QueryCursors` constructor throw
`Illegal query state: None of [ from, to, prefix, value ] set` — the empty
string is JS-falsy, so none of `from`, `to`, `prefix`, `value` counts as set
and predicate construction fails instead of matching empty-string
properties. -/
theorem c10_empty_value_errors (cx : StoreCx) (params : List (String × String))
    (h : ∃ kv ∈ params, strStartsWith kv.1 "$" = false ∧ kv.2 = "") :
    mkQueries cx params = .error illegalMsg := by
  suffices hgo : ∀ (l : List (String × String)) (acc : List QDesc),
      (∃ kv ∈ l, strStartsWith kv.1 "$" = false ∧ kv.2 = "") →
      mkQueriesGo cx l acc = .error illegalMsg from hgo params [] h
  intro l
  induction l with
  | nil =>
    intro acc h0
    obtain ⟨kv, hm, _⟩ := h0
    cases hm
  | cons kv rest ih =>
    intro acc h0
    obtain ⟨k, v⟩ := kv
    unfold mkQueriesGo
    by_cases hctl : strStartsWith k "$" = true
    · rw [if_pos hctl]
      apply ih
      obtain ⟨kv', hm, h1, h2⟩ := h0
      rcases List.mem_cons.mp hm with he | hm'
      · exfalso
        rw [he] at h1
        rw [hctl] at h1
        exact absurd h1 (by decide)
      · exact ⟨kv', hm', h1, h2⟩
    · rw [if_neg hctl]
      rw [find?_mergePred]
      simp only [Option.isSome_none, Bool.false_eq_true, if_false]
      by_cases hv : v = ""
      · subst hv
        rw [mkOneQuery_empty_value]
      · cases hone : mkOneQuery cx (splitKey k).1 (splitKey k).2 v with
        | error e =>
          have he2 : e = illegalMsg := mkOneQuery_error_msg hone
          rw [he2]
        | ok qd =>
          apply ih
          obtain ⟨kv', hm, h1, h2⟩ := h0
          rcases List.mem_cons.mp hm with he | hm'
          · exfalso
            rw [he] at h2
            exact hv h2
          · exact ⟨kv', hm', h1, h2⟩

/-- C10 witness: the single parameter `name=` (empty value) on a one-record
store makes predicate construction fail with the illegal-state error. -/
theorem c10_witness :
    mkQueries cxOne [("name", "")] = .error illegalMsg :=
  c10_empty_value_errors cxOne [("name", "")] ⟨("name", ""), by decide, by decide, rfl⟩

/-- One unfolding of the loop at positive fuel, given the outcome of
`increment` and of the match-recording block. -/
theorem runLoop_succ_eq (join : String) (fromS toS limS : Option String)
    (fuel : Nat) (qs : List Cursor) (prev : Option String) (count : Nat)
    (res : List String) (m? : Option String) (qs' : List Cursor) (expect : Nat)
    (res' : List String) (count' : Nat) (prev' : Option String)
    (hstep : stepJoin join qs = .ok (m?, qs', expect))
    (hemit : stepEmit fromS m? prev count res = (res', count', prev')) :
    runLoop join fromS toS limS (fuel + 1) qs prev count res =
      if expect = 0 then .ok res'
      else if toStop toS count' then .ok res'
      else if limStop limS res'.length then .ok res'
      else runLoop join fromS toS limS fuel qs' prev' count' res' := by
  rw [runLoop, hstep]
  show (match stepEmit fromS m? prev count res with
    | (res', count', prev') =>
      if expect = 0 then Except.ok res'
      else if toStop toS count' = true then Except.ok res'
      else if limStop limS res'.length = true then Except.ok res'
      else runLoop join fromS toS limS fuel qs' prev' count' res') = _
  rw [hemit]

/-- Characterization of one emit step: either the state is unchanged, or an
eligible match bumped the count, became the previous key, and was appended
exactly when the `$from` guard allowed. -/
theorem stepEmit_cases (fromS : Option String) (m? : Option String)
    (prev : Option String) (count : Nat) (res : List String) :
    stepEmit fromS m? prev count res = (res, count, prev) ∨
    ∃ m, m? = some m ∧ m ≠ "" ∧ some m ≠ prev ∧
      stepEmit fromS m? prev count res =
        ((if pushCond fromS count then res ++ [m] else res), count + 1, some m) := by
  cases m? with
  | none => exact Or.inl rfl
  | some m =>
    by_cases h : m ≠ "" ∧ some m ≠ prev
    · refine Or.inr ⟨m, rfl, h.1, h.2, ?_⟩
      simp only [stepEmit]
      rw [if_pos h]
    · refine Or.inl ?_
      simp only [stepEmit]
      rw [if_neg h]

theorem limStop_decide {s : String} {L : Nat} (hnum : jsToNumS s = some (L : Int))
    (hne : s ≠ "") (len : Nat) : limStop (some s) len = decide (len = L) := by
  have hb : (s != "") = true := by simpa using hne
  simp only [limStop, truthyF, hnum, hb, Bool.true_and]
  simp [Int.natCast_inj]

theorem runLoop_limit_le (join : String) (fromS toS : Option String) (s : String) (L : Nat)
    (hnum : jsToNumS s = some (L : Int)) (hL : 0 < L) :
    ∀ (fuel : Nat) (qs : List Cursor) (prev : Option String) (count : Nat)
      (res : List String), res.length < L →
      ∀ out, runLoop join fromS toS (some s) fuel qs prev count res = .ok out →
        out.length ≤ L := by
  have hne : s ≠ "" := by
    intro h
    rw [h] at hnum
    have h0 : (some (0 : Int) : Option Int) = some ((L : Nat) : Int) := hnum
    injection h0 with h1
    omega
  intro fuel
  induction fuel with
  | zero =>
    intro qs prev count res hres out hrun
    injection hrun with h
    rw [← h]
    exact Nat.le_of_lt hres
  | succ fuel ih =>
    intro qs prev count res hres out hrun
    cases hstep : stepJoin join qs with
    | error e =>
      rw [runLoop, hstep] at hrun
      cases hrun
    | ok trip =>
      obtain ⟨m?, qs', expect⟩ := trip
      rcases stepEmit_cases fromS m? prev count res with hem | ⟨m, hm, hm1, hm2, hem⟩
      · rw [runLoop_succ_eq join fromS toS (some s) fuel qs prev count res m? qs' expect
          res count prev hstep hem] at hrun
        split_ifs at hrun
        all_goals first
          | (injection hrun with h; rw [← h]; exact Nat.le_of_lt hres)
          | (exact ih qs' prev count res hres out hrun)
      · by_cases hp : pushCond fromS count = true
        · rw [if_pos hp] at hem
          rw [runLoop_succ_eq join fromS toS (some s) fuel qs prev count res m? qs' expect
            (res ++ [m]) (count + 1) (some m) hstep hem] at hrun
          have hlen : (res ++ [m]).length = res.length + 1 := by simp
          split_ifs at hrun with h1 h2 h3
          · injection hrun with h; rw [← h, hlen]; omega
          · injection hrun with h; rw [← h, hlen]; omega
          · injection hrun with h; rw [← h, hlen]; omega
          · rw [limStop_decide hnum hne] at h3
            have hne2 : (res ++ [m]).length ≠ L := by
              intro hx
              rw [hx] at h3
              simp at h3
            apply ih qs' (some m) (count + 1) (res ++ [m]) _ out hrun
            rw [hlen] at hne2
            omega
        · rw [if_neg hp] at hem
          rw [runLoop_succ_eq join fromS toS (some s) fuel qs prev count res m? qs' expect
            res (count + 1) (some m) hstep hem] at hrun
          split_ifs at hrun
          all_goals first
            | (injection hrun with h; rw [← h]; exact Nat.le_of_lt hres)
            | (exact ih qs' (some m) (count + 1) res hres out hrun)

theorem queryKeys_eq_run (cx : StoreCx) (params : List (String × String))
    (qs : List QDesc) (hmk : mkQueries cx params = .ok qs) (hq : qs.isEmpty = false) :
    queryKeys cx params =
      runLoop (joinOf params) (params.lookup "$from") (params.lookup "$to")
        (params.lookup "$limit") (totalFuel (qs.map (openCursor cx)))
        (qs.map (openCursor cx)) none 0 [] := by
  unfold queryKeys
  rw [hmk]
  show (if qs.isEmpty = true then Except.ok [] else
    runLoop (joinOf params) (List.lookup "$from" params) (List.lookup "$to" params)
      (List.lookup "$limit" params) (totalFuel (List.map (openCursor cx) qs))
      (List.map (openCursor cx) qs) none 0 []) = _
  rw [hq]
  simp

theorem queryKeys_null (cx : StoreCx) (params : List (String × String))
    (qs : List QDesc) (hmk : mkQueries cx params = .ok qs) (hq : qs.isEmpty = true) :
    queryKeys cx params = .ok [] := by
  unfold queryKeys
  rw [hmk]
  show (if qs.isEmpty = true then Except.ok [] else
    runLoop (joinOf params) (List.lookup "$from" params) (List.lookup "$to" params)
      (List.lookup "$limit" params) (totalFuel (List.map (openCursor cx) qs))
      (List.map (openCursor cx) qs) none 0 []) = _
  rw [if_pos hq]

/-- C8 amended: when `$limit` is set to a numeral whose value `L` is
positive, the result holds at most `L` keys.  (With `$limit=0` the guard
`results.length == $limit` is only checked after a push, so a first-step
match slips through and the bound fails — see the counterexample.) -/
theorem c8_limit_bounds_result (cx : StoreCx) (params : List (String × String))
    (s : String) (L : Nat)
    (hs : params.lookup "$limit" = some s)
    (hnum : jsToNumS s = some (L : Int)) (hL : 0 < L)
    (out : List String) (hrun : queryKeys cx params = .ok out) :
    out.length ≤ L := by
  cases hmk : mkQueries cx params with
  | error e =>
    unfold queryKeys at hrun
    rw [hmk] at hrun
    cases hrun
  | ok qs =>
    by_cases hq : qs.isEmpty = true
    · rw [queryKeys_null cx params qs hmk hq] at hrun
      injection hrun with h
      rw [← h]
      simp
    · have hq' : qs.isEmpty = false := by
        cases hval : qs.isEmpty
        · rfl
        · exact absurd hval hq
      rw [queryKeys_eq_run cx params qs hmk hq', hs] at hrun
      exact runLoop_limit_le (joinOf params) (params.lookup "$from") (params.lookup "$to")
        s L hnum hL _ _ none 0 [] (by simpa using hL) out hrun

/-- C8 witness: `$limit=2` on a three-match query returns two keys. -/
theorem c8_witness :
    queryKeys cxABC [("pk$from", "a"), ("$limit", "2")] = .ok ["a", "b"] ∧
    (["a", "b"] : List String).length ≤ 2 :=
  ⟨by decide,
   c8_limit_bounds_result cxABC [("pk$from", "a"), ("$limit", "2")] "2" 2
     (by decide) (by decide) (by decide) ["a", "b"] (by decide)⟩

/-- C8 counterexample: with `$limit` set to `0` the result still holds three
keys, so `|result| ≤ $limit` fails: the limit check compares the length only
after the current match was pushed, and `0` is never reached from `1`. -/
theorem c8_counterexample :
    queryKeys cxABC [("pk$from", "a"), ("$limit", "0")] = .ok ["a", "b", "c"] ∧
    ¬ ((["a", "b", "c"] : List String).length ≤ 0) :=
  ⟨by decide, by decide⟩

theorem foldl_keyMin_eq_min : ∀ (l : List String) (a : String),
    l.foldl keyMin a = l.foldl min a := by
  intro l
  induction l with
  | nil => intro a; rfl
  | cons b l ih =>
    intro a
    rw [List.foldl_cons, List.foldl_cons, keyMin_eq_min, ih]

theorem foldl_min_le : ∀ (l : List String) (a : String),
    l.foldl min a ≤ a ∧ ∀ x ∈ l, l.foldl min a ≤ x := by
  intro l
  induction l with
  | nil => intro a; exact ⟨le_refl a, fun x hx => absurd hx (List.not_mem_nil x)⟩
  | cons b l ih =>
    intro a
    rw [List.foldl_cons]
    obtain ⟨h1, h2⟩ := ih (min a b)
    refine ⟨le_trans h1 (min_le_left a b), fun x hx => ?_⟩
    rcases List.mem_cons.mp hx with he | hm
    · rw [he]
      exact le_trans h1 (min_le_right a b)
    · exact h2 x hm

theorem foldl_min_lb : ∀ (l : List String) (a q : String),
    q ≤ a → (∀ x ∈ l, q ≤ x) → q ≤ l.foldl min a := by
  intro l
  induction l with
  | nil => intro a q h _; exact h
  | cons b l ih =>
    intro a q ha hl
    rw [List.foldl_cons]
    exact ih (min a b) q (le_min ha (hl b (List.mem_cons_self b l)))
      (fun x hx => hl x (List.mem_cons_of_mem b hx))

/-- A live cursor has rows left. -/
theorem rows_ne_nil_of_active {c : Cursor} (h : c.isComplete = false) : c.rows ≠ [] := by
  intro hr
  unfold Cursor.isComplete at h
  rw [hr] at h
  cases hm : c.mode <;> rw [hm] at h <;> simp at h

/-- The primary key of a live cursor is a member of the active primary keys. -/
theorem pk_mem_activePks {qs : List Cursor} {c : Cursor} (hc : c ∈ qs)
    (ha : c.isComplete = false) :
    c.primaryKey ∈ (activeCursors qs).map Cursor.primaryKey :=
  List.mem_map_of_mem Cursor.primaryKey
    (List.mem_filter.mpr ⟨hc, by rw [ha]; rfl⟩)

/-- `cursors[0].primaryKey` bounds every live cursor's key from below. -/
theorem minActivePk_le {qs : List Cursor} {c : Cursor} (hc : c ∈ qs)
    (ha : c.isComplete = false) : minActivePk qs ≤ c.primaryKey := by
  have hmem := pk_mem_activePks hc ha
  unfold minActivePk
  cases hl : (activeCursors qs).map Cursor.primaryKey with
  | nil => rw [hl] at hmem; cases hmem
  | cons p ps =>
    rw [hl] at hmem
    show ps.foldl keyMin p ≤ c.primaryKey
    rw [foldl_keyMin_eq_min]
    rcases List.mem_cons.mp hmem with he | hm
    · rw [← he] at *
      exact (foldl_min_le ps c.primaryKey).1
    · exact (foldl_min_le ps p).2 _ hm

/-- Any lower bound of the live cursors' keys bounds `minActivePk`, as long as
some cursor is live. -/
theorem minActivePk_lb {qs : List Cursor} {q : String}
    (hq : ∀ c ∈ qs, c.isComplete = false → q ≤ c.primaryKey)
    (hex : ∃ c ∈ qs, c.isComplete = false) : q ≤ minActivePk qs := by
  obtain ⟨c, hc, ha⟩ := hex
  have hmem := pk_mem_activePks hc ha
  have hall : ∀ x ∈ (activeCursors qs).map Cursor.primaryKey, q ≤ x := by
    intro x hx
    obtain ⟨c', hc', he⟩ := List.mem_map.mp hx
    have hmem' := List.mem_filter.mp hc'
    rw [← he]
    exact hq c' hmem'.1 (by
      have := hmem'.2
      simpa using this)
  unfold minActivePk
  cases hl : (activeCursors qs).map Cursor.primaryKey with
  | nil => rw [hl] at hmem; cases hmem
  | cons p ps =>
    show q ≤ ps.foldl keyMin p
    rw [foldl_keyMin_eq_min]
    rw [hl] at hall
    exact foldl_min_lb ps p q (hall p (List.mem_cons_self p ps))
      (fun x hx => hall x (List.mem_cons_of_mem p hx))

/-- A nonempty minimum key means some cursor is live. -/
theorem exists_active_of_minActivePk_ne {qs : List Cursor}
    (h : minActivePk qs ≠ "") : ∃ c ∈ qs, c.isComplete = false := by
  unfold minActivePk at h
  cases hl : (activeCursors qs).map Cursor.primaryKey with
  | nil => rw [hl] at h; exact absurd rfl h
  | cons p ps =>
    have : (activeCursors qs) ≠ [] := by
      intro hx
      rw [hx] at hl
      cases hl
    obtain ⟨c, hc⟩ := List.exists_mem_of_ne_nil _ this
    have hmem := List.mem_filter.mp hc
    exact ⟨c, hmem.1, by simpa using hmem.2⟩

/-- Advancing preserves a cursor's ascending primary-key order. -/
theorem advance_asc {c : Cursor}
    (h : (c.rows.map Row.pk).Pairwise (fun a b => a < b)) :
    ((c.advance).rows.map Row.pk).Pairwise (fun a b => a < b) := by
  unfold Cursor.advance
  cases hr : c.rows with
  | nil => simp
  | cons r rest =>
    rw [hr] at h
    simp only [List.map_cons, List.pairwise_cons] at h
    simpa using h.2

/-- If a cursor is still live after one advance, its key strictly grew. -/
theorem advance_pk_gt {c : Cursor}
    (hA : (c.rows.map Row.pk).Pairwise (fun a b => a < b))
    (ha : c.isComplete = false) (ha' : (c.advance).isComplete = false) :
    c.primaryKey < (c.advance).primaryKey := by
  have hr := rows_ne_nil_of_active ha
  have hr' := rows_ne_nil_of_active ha'
  cases hrows : c.rows with
  | nil => exact absurd hrows hr
  | cons r rest =>
    have hadv : (c.advance).rows = rest := by
      unfold Cursor.advance
      rw [hrows]
      rfl
    cases hrest : rest with
    | nil =>
      rw [hadv, hrest] at hr'
      exact absurd rfl hr'
    | cons r2 rest2 =>
      have h1 : c.primaryKey = r.pk := by
        unfold Cursor.primaryKey
        rw [hrows]
      have h2 : (c.advance).primaryKey = r2.pk := by
        unfold Cursor.primaryKey
        rw [hadv, hrest]
      rw [h1, h2]
      rw [hrows, hrest] at hA
      simp only [List.map_cons, List.pairwise_cons] at hA
      exact hA.1 r2.pk (by simp)

/-- Membership in `advanceFirstWithPk`: each resulting cursor is either an
untouched original or the advance of a live original holding key `p`. -/
theorem advanceFirstWithPk_mem {p : String} :
    ∀ {qs : List Cursor} {c' : Cursor}, c' ∈ advanceFirstWithPk p qs →
      c' ∈ qs ∨ ∃ c ∈ qs, c.isComplete = false ∧ c.primaryKey = p ∧ c' = c.advance := by
  intro qs
  induction qs with
  | nil => intro c' h; cases h
  | cons c cs ih =>
    intro c' h
    unfold advanceFirstWithPk at h
    by_cases hcond : (!c.isComplete && c.primaryKey == p) = true
    · rw [if_pos hcond] at h
      simp only [Bool.and_eq_true, Bool.not_eq_true', beq_iff_eq] at hcond
      rcases List.mem_cons.mp h with he | hm
      · exact Or.inr ⟨c, List.mem_cons_self c cs, hcond.1, hcond.2, he⟩
      · exact Or.inl (List.mem_cons_of_mem c hm)
    · rw [if_neg hcond] at h
      rcases List.mem_cons.mp h with he | hm
      · exact Or.inl (by rw [he]; exact List.mem_cons_self c cs)
      · rcases ih hm with hin | ⟨c0, hc0, h1, h2, h3⟩
        · exact Or.inl (List.mem_cons_of_mem c hin)
        · exact Or.inr ⟨c0, List.mem_cons_of_mem c hc0, h1, h2, h3⟩

/-- Membership in `continueAll`: completed cursors stay, live cursors are
advanced. -/
theorem continueAll_mem {qs : List Cursor} {c' : Cursor}
    (h : c' ∈ continueAll qs) :
    ∃ c ∈ qs, (c.isComplete = true ∧ c' = c) ∨ (c.isComplete = false ∧ c' = c.advance) := by
  obtain ⟨c, hc, he⟩ := List.mem_map.mp h
  refine ⟨c, hc, ?_⟩
  cases hcomp : c.isComplete
  · right
    refine ⟨rfl, ?_⟩
    rw [← he, hcomp]
    simp
  · left
    refine ⟨rfl, ?_⟩
    rw [← he, hcomp]
    simp

/-- When `allKeysMatch` holds, every live cursor sits at the minimum key. -/
theorem allKeysMatch_eq {qs : List Cursor} (h : allKeysMatch qs = true) :
    ∀ c ∈ qs, c.isComplete = false → c.primaryKey = minActivePk qs := by
  intro c hc ha
  unfold allKeysMatch at h
  rw [List.all_eq_true] at h
  have := h c (List.mem_filter.mpr ⟨hc, by rw [ha]; rfl⟩)
  simpa using this

/-- `continueLowest` preserves per-cursor ascending order. -/
theorem advanceFirstWithPk_asc {p : String} {qs : List Cursor}
    (hA : ∀ c ∈ qs, (c.rows.map Row.pk).Pairwise (fun a b => a < b)) :
    ∀ c' ∈ advanceFirstWithPk p qs,
      (c'.rows.map Row.pk).Pairwise (fun a b => a < b) := by
  intro c' h
  rcases advanceFirstWithPk_mem h with hin | ⟨c, hc, _, _, he⟩
  · exact hA c' hin
  · rw [he]
    exact advance_asc (hA c hc)

/-- `continueAll` preserves per-cursor ascending order. -/
theorem continueAll_asc {qs : List Cursor}
    (hA : ∀ c ∈ qs, (c.rows.map Row.pk).Pairwise (fun a b => a < b)) :
    ∀ c' ∈ continueAll qs, (c'.rows.map Row.pk).Pairwise (fun a b => a < b) := by
  intro c' h
  rcases continueAll_mem h with ⟨c, hc, ⟨_, he⟩ | ⟨_, he⟩⟩
  · rw [he]; exact hA c hc
  · rw [he]; exact advance_asc (hA c hc)

/-- Any lower bound of the live keys survives `continueLowest`. -/
theorem advanceFirstWithPk_lb {p q : String} {qs : List Cursor}
    (hA : ∀ c ∈ qs, (c.rows.map Row.pk).Pairwise (fun a b => a < b))
    (hq : ∀ c ∈ qs, c.isComplete = false → q ≤ c.primaryKey) :
    ∀ c' ∈ advanceFirstWithPk p qs, c'.isComplete = false → q ≤ c'.primaryKey := by
  intro c' h ha'
  rcases advanceFirstWithPk_mem h with hin | ⟨c, hc, hact, _, he⟩
  · exact hq c' hin ha'
  · rw [he]
    rw [he] at ha'
    exact le_trans (hq c hc hact) (le_of_lt (advance_pk_gt (hA c hc) hact ha'))

/-- After `continueLowest` at the minimum key, the old minimum still bounds
every live cursor. -/
theorem advanceFirstWithPk_min_lb {qs : List Cursor}
    (hA : ∀ c ∈ qs, (c.rows.map Row.pk).Pairwise (fun a b => a < b)) :
    ∀ c' ∈ advanceFirstWithPk (minActivePk qs) qs, c'.isComplete = false →
      minActivePk qs ≤ c'.primaryKey := by
  intro c' h ha'
  rcases advanceFirstWithPk_mem h with hin | ⟨c, hc, hact, hpk, he⟩
  · exact minActivePk_le hin ha'
  · rw [he]
    rw [he] at ha'
    rw [← hpk]
    exact le_of_lt (advance_pk_gt (hA c hc) hact ha')

/-- After `continueAll` in the all-keys-match state, the matched key strictly
bounds every live cursor. -/
theorem continueAll_gt {qs : List Cursor}
    (hA : ∀ c ∈ qs, (c.rows.map Row.pk).Pairwise (fun a b => a < b))
    (hall : allKeysMatch qs = true) :
    ∀ c' ∈ continueAll qs, c'.isComplete = false →
      minActivePk qs < c'.primaryKey := by
  intro c' h ha'
  rcases continueAll_mem h with ⟨c, hc, ⟨hcomp, he⟩ | ⟨hact, he⟩⟩
  · rw [he] at ha'
    rw [ha'] at hcomp
    cases hcomp
  · rw [he]
    rw [he] at ha'
    rw [← allKeysMatch_eq hall c hc hact]
    exact advance_pk_gt (hA c hc) hact ha'

/-- Outcome analysis of one `increment` call. -/
theorem stepJoin_cases {join : String} {qs : List Cursor} {m? : Option String}
    {qs' : List Cursor} {expect : Nat}
    (h : stepJoin join qs = .ok (m?, qs', expect)) :
    (m? = none ∧ qs' = qs) ∨
    (m? = some (minActivePk qs) ∧ qs' = continueLowest qs) ∨
    (m? = some (minActivePk qs) ∧ qs' = continueAll qs ∧ allKeysMatch qs = true) ∨
    (m? = none ∧ qs' = continueLowest qs) := by
  unfold stepJoin at h
  by_cases hor : join = "or"
  · rw [if_pos hor] at h
    by_cases hemp : (activeCursors qs).isEmpty = true
    · rw [if_pos hemp] at h
      injection h with h1
      injection h1 with ha hb
      injection hb with hb1 _
      exact Or.inl ⟨ha.symm, hb1.symm⟩
    · rw [if_neg hemp] at h
      injection h with h1
      injection h1 with ha hb
      injection hb with hb1 _
      exact Or.inr (Or.inl ⟨ha.symm, hb1.symm⟩)
  · rw [if_neg hor] at h
    by_cases hand : join = "and"
    · rw [if_pos hand] at h
      by_cases hlen : (activeCursors qs).length < qs.length
      · rw [if_pos hlen] at h
        injection h with h1
        injection h1 with ha hb
        injection hb with hb1 _
        exact Or.inl ⟨ha.symm, hb1.symm⟩
      · rw [if_neg hlen] at h
        by_cases hall : allKeysMatch qs = true
        · rw [if_pos hall] at h
          injection h with h1
          injection h1 with ha hb
          injection hb with hb1 _
          exact Or.inr (Or.inr (Or.inl ⟨ha.symm, hb1.symm, hall⟩))
        · rw [if_neg hall] at h
          injection h with h1
          injection h1 with ha hb
          injection hb with hb1 _
          exact Or.inr (Or.inr (Or.inr ⟨ha.symm, hb1.symm⟩))
    · rw [if_neg hand] at h
      cases h

/-- The sortedness invariant of the merge loop: if every cursor visits its
primary keys in strictly ascending order, the emitted result (on top of an
already-sorted accumulator bounded by the previous match, which in turn
bounds every live cursor) is strictly ascending. -/
theorem runLoop_sorted (join : String) (fromS toS limS : Option String) :
    ∀ (fuel : Nat) (qs : List Cursor) (prev : Option String) (count : Nat)
      (res : List String),
      (∀ c ∈ qs, (c.rows.map Row.pk).Pairwise (fun a b => a < b)) →
      res.Pairwise (fun a b => a < b) →
      (prev = none → res = []) →
      (∀ q, prev = some q → (∀ x ∈ res, x ≤ q) ∧
        (∀ c ∈ qs, c.isComplete = false → q ≤ c.primaryKey)) →
      ∀ out, runLoop join fromS toS limS fuel qs prev count res = .ok out →
        out.Pairwise (fun a b => a < b) := by
  intro fuel
  induction fuel with
  | zero =>
    intro qs prev count res hA hres hpn hp out hrun
    injection hrun with h
    rw [← h]
    exact hres
  | succ fuel ih =>
    intro qs prev count res hA hres hpn hp out hrun
    cases hstep : stepJoin join qs with
    | error e =>
      rw [runLoop, hstep] at hrun
      cases hrun
    | ok trip =>
      obtain ⟨m?, qs', expect⟩ := trip
      rcases stepEmit_cases fromS m? prev count res with hem | ⟨m, hm, hm1, hm2, hem⟩
      · rw [runLoop_succ_eq join fromS toS limS fuel qs prev count res m? qs' expect
          res count prev hstep hem] at hrun
        have hA' : ∀ c ∈ qs', (c.rows.map Row.pk).Pairwise (fun a b => a < b) := by
          rcases stepJoin_cases hstep with ⟨_, hq'⟩ | ⟨_, hq'⟩ | ⟨_, hq', _⟩ | ⟨_, hq'⟩ <;>
            rw [hq']
          · exact hA
          · exact advanceFirstWithPk_asc hA
          · exact continueAll_asc hA
          · exact advanceFirstWithPk_asc hA
        have hp' : ∀ q, prev = some q → (∀ x ∈ res, x ≤ q) ∧
            (∀ c ∈ qs', c.isComplete = false → q ≤ c.primaryKey) := by
          intro q hqe
          obtain ⟨h1, h2⟩ := hp q hqe
          refine ⟨h1, ?_⟩
          rcases stepJoin_cases hstep with ⟨_, hq'⟩ | ⟨_, hq'⟩ | ⟨_, hq', hall⟩ | ⟨_, hq'⟩ <;>
            rw [hq']
          · exact h2
          · exact advanceFirstWithPk_lb hA h2
          · intro c' hc' ha'
            rcases continueAll_mem hc' with ⟨c, hc, ⟨hcomp, he⟩ | ⟨hact, he⟩⟩
            · rw [he] at ha'
              rw [ha'] at hcomp
              cases hcomp
            · rw [he]
              rw [he] at ha'
              exact le_trans (h2 c hc hact)
                (le_of_lt (advance_pk_gt (hA c hc) hact ha'))
          · exact advanceFirstWithPk_lb hA h2
        split_ifs at hrun
        all_goals first
          | (injection hrun with h; rw [← h]; exact hres)
          | (exact ih qs' prev count res hA' hres hpn hp' out hrun)
      · -- an eligible match m was recorded
        have hkey : m = minActivePk qs ∧
            ((qs' = continueLowest qs) ∨ (qs' = continueAll qs ∧ allKeysMatch qs = true)) := by
          rcases stepJoin_cases hstep with ⟨hnone, _⟩ | ⟨hsome, hq'⟩ |
            ⟨hsome, hq', hall⟩ | ⟨hnone, _⟩
          · rw [hm] at hnone; cases hnone
          · rw [hm] at hsome
            injection hsome with hx
            exact ⟨hx, Or.inl hq'⟩
          · rw [hm] at hsome
            injection hsome with hx
            exact ⟨hx, Or.inr ⟨hq', hall⟩⟩
          · rw [hm] at hnone; cases hnone
        obtain ⟨hmm, hbr⟩ := hkey
        have hexists : ∃ c ∈ qs, c.isComplete = false := by
          apply exists_active_of_minActivePk_ne
          rw [← hmm]
          exact hm1
        -- every accumulated key is strictly below m
        have hql : ∀ x ∈ res, x < m := by
          cases hprev : prev with
          | none =>
            rw [hpn hprev]
            intro x hx
            cases hx
          | some q =>
            obtain ⟨h1, h2⟩ := hp q hprev
            have hqm : q ≤ m := by
              rw [hmm]
              exact minActivePk_lb h2 hexists
            have hne : q ≠ m := by
              intro hx
              rw [hprev, hx] at hm2
              exact hm2 rfl
            intro x hx
            exact lt_of_le_of_lt (h1 x hx) (lt_of_le_of_ne hqm hne)
        -- the new cursor states are still ascending, and m bounds the live ones
        have hA' : ∀ c ∈ qs', (c.rows.map Row.pk).Pairwise (fun a b => a < b) := by
          rcases hbr with hq' | ⟨hq', _⟩ <;> rw [hq']
          · exact advanceFirstWithPk_asc hA
          · exact continueAll_asc hA
        have hbound : ∀ c' ∈ qs', c'.isComplete = false → m ≤ c'.primaryKey := by
          rcases hbr with hq' | ⟨hq', hall⟩ <;> rw [hq', hmm]
          · exact advanceFirstWithPk_min_lb hA
          · intro c' hc' ha'
            exact le_of_lt (continueAll_gt hA hall c' hc' ha')
        -- the updated accumulator is sorted and bounded by m
        have hresp : (res ++ [m]).Pairwise (fun a b => a < b) := by
          rw [List.pairwise_append]
          exact ⟨hres, List.pairwise_singleton _ m,
            fun a ha b hb => by rw [List.mem_singleton.mp hb]; exact hql a ha⟩
        have hlep : ∀ x ∈ res ++ [m], x ≤ m := by
          intro x hx
          rcases List.mem_append.mp hx with h1 | h1
          · exact le_of_lt (hql x h1)
          · rw [List.mem_singleton.mp h1]
        by_cases hpush : pushCond fromS count = true
        · rw [if_pos hpush] at hem
          rw [runLoop_succ_eq join fromS toS limS fuel qs prev count res m? qs' expect
            (res ++ [m]) (count + 1) (some m) hstep hem] at hrun
          have hp' : ∀ q, (some m : Option String) = some q →
              (∀ x ∈ res ++ [m], x ≤ q) ∧
              (∀ c ∈ qs', c.isComplete = false → q ≤ c.primaryKey) := by
            intro q hqe
            injection hqe with hqe1
            rw [← hqe1]
            exact ⟨hlep, hbound⟩
          split_ifs at hrun
          all_goals first
            | (injection hrun with h; rw [← h]; exact hresp)
            | (exact ih qs' (some m) (count + 1) (res ++ [m]) hA' hresp
                (fun hx => by cases hx) hp' out hrun)
        · rw [if_neg hpush] at hem
          rw [runLoop_succ_eq join fromS toS limS fuel qs prev count res m? qs' expect
            res (count + 1) (some m) hstep hem] at hrun
          have hp' : ∀ q, (some m : Option String) = some q →
              (∀ x ∈ res, x ≤ q) ∧
              (∀ c ∈ qs', c.isComplete = false → q ≤ c.primaryKey) := by
            intro q hqe
            injection hqe with hqe1
            rw [← hqe1]
            exact ⟨fun x hx => le_of_lt (hql x hx), hbound⟩
          split_ifs at hrun
          all_goals first
            | (injection hrun with h; rw [← h]; exact hres)
            | (exact ih qs' (some m) (count + 1) res hA' hres
                (fun hx => by cases hx) hp' out hrun)

/-- C1 amended: whenever every cursor visits its primary keys in strictly
ascending order — the spec's §4.4 precondition, automatic for primary-key and
scan cursors but not guaranteed for secondary-index cursors whose index order
disagrees with primary-key order — the key sequence emitted by the merge
coordinator (before materialization) is strictly ascending under the store's
key comparator, and in particular duplicate-free, for `$join=and` and
`$join=or` alike (and vacuously for an invalid join, which errors). -/
theorem c1_sorted_merge (join : String) (fromS toS limS : Option String)
    (fuel : Nat) (qs : List Cursor)
    (hasc : ∀ c ∈ qs, (c.rows.map Row.pk).Pairwise (fun a b => a < b))
    (out : List String)
    (hrun : runLoop join fromS toS limS fuel qs none 0 [] = .ok out) :
    out.Pairwise (fun a b => a < b) ∧ out.Nodup :=
  have hs := runLoop_sorted join fromS toS limS fuel qs none 0 [] hasc
    List.Pairwise.nil (fun _ => rfl) (fun q hq => by cases hq) out hrun
  ⟨hs, hs.imp ne_of_lt⟩

/-- C1 witness: a single ascending primary-key cursor over `a, b, c`. -/
theorem c1_witness :
    (["a", "b", "c"] : List String).Pairwise (fun a b => a < b) ∧
    (["a", "b", "c"] : List String).Nodup :=
  c1_sorted_merge "and" none none none 10
    [⟨CMode.rangeMode, "", [⟨"a", "a"⟩, ⟨"b", "b"⟩, ⟨"c", "c"⟩]⟩]
    (by
      intro c hc
      rw [List.mem_singleton] at hc
      subst hc
      exact (show List.Pairwise (fun a b => strLt a b = true) ["a", "b", "c"]
        by decide).imp (fun h => strLt_iff.mp h))
    ["a", "b", "c"] (by decide)

/-- C1 counterexample: on a store whose `group` index orders records
oppositely to their primary keys, the `or`-join of `pk$from=a` and
`group$from=1` emits `a, b, a` — the key `a` appears twice (and the sequence
is not ascending), because the adjacent-duplicate check cannot see the
earlier emission once `b` intervened. -/
theorem c1_counterexample :
    queryKeys cxOrDup [("pk$from", "a"), ("group$from", "1"), ("$join", "or")] =
      .ok ["a", "b", "a"] ∧
    ¬ (["a", "b", "a"] : List String).Nodup :=
  ⟨by decide, by decide⟩

theorem stepJoin_ok_valid {join : String} {qs : List Cursor}
    {v : Option String × List Cursor × Nat} (h : stepJoin join qs = .ok v) :
    join = "or" ∨ join = "and" := by
  by_cases hor : join = "or"
  · exact Or.inl hor
  · by_cases hand : join = "and"
    · exact Or.inr hand
    · exfalso
      unfold stepJoin at h
      rw [if_neg hor, if_neg hand] at h
      cases h

theorem stepJoin_valid_ok {join : String} (hj : join = "or" ∨ join = "and")
    (qs : List Cursor) : ∃ v, stepJoin join qs = .ok v := by
  unfold stepJoin
  rcases hj with hj | hj
  · rw [if_pos hj]
    by_cases hemp : (activeCursors qs).isEmpty = true
    · rw [if_pos hemp]; exact ⟨_, rfl⟩
    · rw [if_neg hemp]; exact ⟨_, rfl⟩
  · by_cases hor : join = "or"
    · rw [if_pos hor]
      by_cases hemp : (activeCursors qs).isEmpty = true
      · rw [if_pos hemp]; exact ⟨_, rfl⟩
      · rw [if_neg hemp]; exact ⟨_, rfl⟩
    · rw [if_neg hor, if_pos hj]
      by_cases hlen : (activeCursors qs).length < qs.length
      · rw [if_pos hlen]; exact ⟨_, rfl⟩
      · rw [if_neg hlen]
        by_cases hall : allKeysMatch qs = true
        · rw [if_pos hall]; exact ⟨_, rfl⟩
        · rw [if_neg hall]; exact ⟨_, rfl⟩

/-- Branch analysis of the emit step, quantified over the `$from` parameter
and the accumulator so that it applies to two parallel runs at once. -/
theorem stepEmit_branches (m? : Option String) (prev : Option String) (count : Nat) :
    (∀ (fromS : Option String) (res : List String),
        stepEmit fromS m? prev count res = (res, count, prev)) ∨
    (∃ m, m? = some m ∧ m ≠ "" ∧ some m ≠ prev ∧
      ∀ (fromS : Option String) (res : List String),
        stepEmit fromS m? prev count res =
          ((if pushCond fromS count then res ++ [m] else res), count + 1, some m)) := by
  cases m? with
  | none => exact Or.inl (fun _ _ => rfl)
  | some m =>
    by_cases h : m ≠ "" ∧ some m ≠ prev
    · refine Or.inr ⟨m, rfl, h.1, h.2, fun fromS res => ?_⟩
      simp only [stepEmit]
      rw [if_pos h]
    · refine Or.inl (fun fromS res => ?_)
      simp only [stepEmit]
      rw [if_neg h]

theorem pushCond_none (count : Nat) : pushCond none count = true := rfl

theorem pushCond_some {fs : String} {k : Nat} (hfs : fs ≠ "")
    (hk : jsToNumS fs = some (k : Int)) (count : Nat) :
    pushCond (some fs) count = decide (k ≤ count) := by
  have hb : (fs != "") = true := by simpa using hfs
  show ((!(fs != "")) || (match jsToNumS fs with
    | some v => decide (v ≤ (count : Int))
    | none => false)) = decide (k ≤ count)
  rw [hb, hk]
  simp only [Bool.not_true, Bool.false_or]
  simp [Nat.cast_le]

theorem limStop_zero_false {limS : Option String}
    (hlim : ∀ s, limS = some s → jsToNumS s ≠ some 0) : limStop limS 0 = false := by
  cases limS with
  | none => rfl
  | some s =>
    show ((s != "") && (match jsToNumS s with
      | some v => decide ((((0 : Nat)) : Int) = v)
      | none => false)) = false
    cases hv : jsToNumS s with
    | none => simp
    | some v =>
      have hvne : v ≠ 0 := by
        intro hx
        exact hlim s rfl (by rw [hv, hx])
      have h0 : ¬((((0 : Nat)) : Int) = v) := by
        push_cast
        omega
      show (s != "" && decide ((((0 : Nat)) : Int) = v)) = false
      rw [decide_eq_false h0]
      simp

/-- The loop only appends to its accumulator. -/
theorem runLoop_prefix (join : String) (fromS toS limS : Option String) :
    ∀ (fuel : Nat) (qs : List Cursor) (prev : Option String) (count : Nat)
      (res : List String) (out : List String),
      runLoop join fromS toS limS fuel qs prev count res = .ok out →
      res <+: out := by
  intro fuel
  induction fuel with
  | zero =>
    intro qs prev count res out hrun
    injection hrun with h
    rw [← h]
  | succ fuel ih =>
    intro qs prev count res out hrun
    cases hstep : stepJoin join qs with
    | error e =>
      rw [runLoop, hstep] at hrun
      cases hrun
    | ok trip =>
      obtain ⟨m?, qs', expect⟩ := trip
      rcases stepEmit_branches m? prev count with hseq | ⟨m, hm, hm1, hm2, hseq⟩
      · rw [runLoop_succ_eq join fromS toS limS fuel qs prev count res m? qs' expect
          res count prev hstep (hseq fromS res)] at hrun
        split_ifs at hrun
        all_goals first
          | (injection hrun with h; rw [← h])
          | (exact ih qs' prev count res out hrun)
      · by_cases hpush : pushCond fromS count = true
        · have hsw := hseq fromS res
          rw [hpush, if_pos rfl] at hsw
          rw [runLoop_succ_eq join fromS toS limS fuel qs prev count res m? qs' expect
            (res ++ [m]) (count + 1) (some m) hstep hsw] at hrun
          split_ifs at hrun
          all_goals first
            | (injection hrun with h; rw [← h]; exact List.prefix_append res [m])
            | (exact List.IsPrefix.trans (List.prefix_append res [m])
                (ih qs' (some m) (count + 1) (res ++ [m]) out hrun))
        · have hsw := hseq fromS res
          have hpf : pushCond fromS count = false := by
            cases hx : pushCond fromS count
            · rfl
            · exact absurd hx hpush
          rw [hpf] at hsw
          simp only [Bool.false_eq_true, if_false] at hsw
          rw [runLoop_succ_eq join fromS toS limS fuel qs prev count res m? qs' expect
            res (count + 1) (some m) hstep hsw] at hrun
          split_ifs at hrun
          all_goals first
            | (injection hrun with h; rw [← h])
            | (exact ih qs' (some m) (count + 1) res out hrun)

/-- For a valid join the loop always resolves, with a result extending the
accumulator. -/
theorem runLoop_ok_prefix (join : String) (fromS toS limS : Option String)
    (hj : join = "or" ∨ join = "and") :
    ∀ (fuel : Nat) (qs : List Cursor) (prev : Option String) (count : Nat)
      (res : List String),
      ∃ out, runLoop join fromS toS limS fuel qs prev count res = .ok out ∧
        res <+: out := by
  intro fuel
  induction fuel with
  | zero => intro qs prev count res; exact ⟨res, rfl, List.prefix_rfl⟩
  | succ fuel ih =>
    intro qs prev count res
    obtain ⟨⟨m?, qs', expect⟩, hstep⟩ := stepJoin_valid_ok hj qs
    rcases stepEmit_branches m? prev count with hseq | ⟨m, hm, hm1, hm2, hseq⟩
    · rw [runLoop_succ_eq join fromS toS limS fuel qs prev count res m? qs' expect
        res count prev hstep (hseq fromS res)]
      by_cases h1 : expect = 0
      · rw [if_pos h1]; exact ⟨res, rfl, List.prefix_rfl⟩
      · rw [if_neg h1]
        by_cases h2 : toStop toS count = true
        · rw [if_pos h2]; exact ⟨res, rfl, List.prefix_rfl⟩
        · rw [if_neg h2]
          by_cases h3 : limStop limS res.length = true
          · rw [if_pos h3]; exact ⟨res, rfl, List.prefix_rfl⟩
          · rw [if_neg h3]
            exact ih qs' prev count res
    · have hres' : ∃ res', stepEmit fromS m? prev count res = (res', count + 1, some m) ∧
          res <+: res' := by
        by_cases hpush : pushCond fromS count = true
        · refine ⟨res ++ [m], ?_, List.prefix_append res [m]⟩
          rw [hseq fromS res, hpush, if_pos rfl]
        · refine ⟨res, ?_, List.prefix_rfl⟩
          have hpf : pushCond fromS count = false := by
            cases hx : pushCond fromS count
            · rfl
            · exact absurd hx hpush
          rw [hseq fromS res, hpf]
          simp
      obtain ⟨res', hseq', hpre⟩ := hres'
      rw [runLoop_succ_eq join fromS toS limS fuel qs prev count res m? qs' expect
        res' (count + 1) (some m) hstep hseq']
      by_cases h1 : expect = 0
      · rw [if_pos h1]; exact ⟨res', rfl, hpre⟩
      · rw [if_neg h1]
        by_cases h2 : toStop toS (count + 1) = true
        · rw [if_pos h2]; exact ⟨res', rfl, hpre⟩
        · rw [if_neg h2]
          by_cases h3 : limStop limS res'.length = true
          · rw [if_pos h3]; exact ⟨res', rfl, hpre⟩
          · rw [if_neg h3]
            obtain ⟨out, hout, hpre2⟩ := ih qs' (some m) (count + 1) res'
            exact ⟨out, hout, List.IsPrefix.trans hpre hpre2⟩

/-- The `$from` offset lemma: run the loop twice from the same cursor state,
once with `$from` equal to the numeral `fs` of value `k` and an empty result,
once without `$from` and with `count` matches already accumulated.  Both runs
step through identical cursor states and counts; if the run without `$from`
produces at least `k + 1` keys, the run with `$from` succeeds and its first
key is the `(k+1)`-th key of the other run. -/
theorem runLoop_from_offset (join : String) (toS limS : Option String)
    (fs : String) (k : Nat) (hfs : fs ≠ "") (hk : jsToNumS fs = some (k : Int))
    (hlim : ∀ s, limS = some s → jsToNumS s ≠ some 0) :
    ∀ (fuel : Nat) (qs : List Cursor) (prev : Option String) (count : Nat)
      (rn : List String),
      count ≤ k → rn.length = count →
      ∀ lnf, runLoop join none toS limS fuel qs prev count rn = .ok lnf →
        k + 1 ≤ lnf.length →
        ∃ lw, runLoop join (some fs) toS limS fuel qs prev count [] = .ok lw ∧
          lw.head? = lnf[k]? := by
  intro fuel
  induction fuel with
  | zero =>
    intro qs prev count rn hck hlen lnf hn hlnf
    exfalso
    injection hn with h
    rw [← h] at hlnf
    omega
  | succ fuel ih =>
    intro qs prev count rn hck hlen lnf hn hlnf
    cases hstep : stepJoin join qs with
    | error e =>
      rw [runLoop, hstep] at hn
      cases hn
    | ok trip =>
      obtain ⟨m?, qs', expect⟩ := trip
      have hjv := stepJoin_ok_valid hstep
      rcases stepEmit_branches m? prev count with hseq | ⟨m, hm, hm1, hm2, hseq⟩
      · -- no eligible match: both runs idle through this round
        rw [runLoop_succ_eq join none toS limS fuel qs prev count rn m? qs' expect
          rn count prev hstep (hseq none rn)] at hn
        by_cases h1 : expect = 0
        · exfalso
          rw [if_pos h1] at hn
          injection hn with h
          rw [← h] at hlnf
          omega
        · by_cases h2 : toStop toS count = true
          · exfalso
            rw [if_neg h1, if_pos h2] at hn
            injection hn with h
            rw [← h] at hlnf
            omega
          · by_cases h3 : limStop limS rn.length = true
            · exfalso
              rw [if_neg h1, if_neg h2, if_pos h3] at hn
              injection hn with h
              rw [← h] at hlnf
              omega
            · rw [if_neg h1, if_neg h2, if_neg h3] at hn
              obtain ⟨lw, hw, hh⟩ := ih qs' prev count rn hck hlen lnf hn hlnf
              refine ⟨lw, ?_, hh⟩
              rw [runLoop_succ_eq join (some fs) toS limS fuel qs prev count [] m? qs' expect
                [] count prev hstep (hseq (some fs) [])]
              have h3w : ¬(limStop limS ([] : List String).length = true) := by
                intro hx
                rw [show (([] : List String)).length = 0 from rfl,
                  limStop_zero_false hlim] at hx
                cases hx
              rw [if_neg h1, if_neg h2, if_neg h3w]
              exact hw
      · -- an eligible match m is recorded by both runs
        have hsn : stepEmit none m? prev count rn = (rn ++ [m], count + 1, some m) := by
          rw [hseq none rn, pushCond_none]
          simp
        rw [runLoop_succ_eq join none toS limS fuel qs prev count rn m? qs' expect
          (rn ++ [m]) (count + 1) (some m) hstep hsn] at hn
        have hlen1 : (rn ++ [m]).length = count + 1 := by simp [hlen]
        by_cases hck2 : count < k
        · -- still below the offset: the with-from run does not push
          have hpw : pushCond (some fs) count = false := by
            rw [pushCond_some hfs hk]
            exact decide_eq_false (by omega)
          have hsw : stepEmit (some fs) m? prev count [] = ([], count + 1, some m) := by
            rw [hseq (some fs) [], hpw]
            simp
          by_cases h1 : expect = 0
          · exfalso
            rw [if_pos h1] at hn
            injection hn with h
            rw [← h] at hlnf
            rw [hlen1] at hlnf
            omega
          · by_cases h2 : toStop toS (count + 1) = true
            · exfalso
              rw [if_neg h1, if_pos h2] at hn
              injection hn with h
              rw [← h] at hlnf
              rw [hlen1] at hlnf
              omega
            · by_cases h3 : limStop limS (rn ++ [m]).length = true
              · exfalso
                rw [if_neg h1, if_neg h2, if_pos h3] at hn
                injection hn with h
                rw [← h] at hlnf
                rw [hlen1] at hlnf
                omega
              · rw [if_neg h1, if_neg h2, if_neg h3] at hn
                obtain ⟨lw, hw, hh⟩ := ih qs' (some m) (count + 1) (rn ++ [m])
                  (by omega) hlen1 lnf hn hlnf
                refine ⟨lw, ?_, hh⟩
                rw [runLoop_succ_eq join (some fs) toS limS fuel qs prev count [] m? qs' expect
                  [] (count + 1) (some m) hstep hsw]
                have h3w : ¬(limStop limS ([] : List String).length = true) := by
                  intro hx
                  rw [show (([] : List String)).length = 0 from rfl,
                    limStop_zero_false hlim] at hx
                  cases hx
                rw [if_neg h1, if_neg h2, if_neg h3w]
                exact hw
        · -- count = k: this match is the (k+1)-th; both runs push it
          have hck3 : count = k := by omega
          have hpw : pushCond (some fs) count = true := by
            rw [pushCond_some hfs hk]
            exact decide_eq_true (by omega)
          have hsw : stepEmit (some fs) m? prev count [] = ([m], count + 1, some m) := by
            rw [hseq (some fs) [], hpw]
            simp
          have hnpref : (rn ++ [m]) <+: lnf := by
            by_cases h1 : expect = 0
            · rw [if_pos h1] at hn
              injection hn with h
              rw [← h]
            · by_cases h2 : toStop toS (count + 1) = true
              · rw [if_neg h1, if_pos h2] at hn
                injection hn with h
                rw [← h]
              · by_cases h3 : limStop limS (rn ++ [m]).length = true
                · rw [if_neg h1, if_neg h2, if_pos h3] at hn
                  injection hn with h
                  rw [← h]
                · rw [if_neg h1, if_neg h2, if_neg h3] at hn
                  exact runLoop_prefix join none toS limS fuel qs' (some m) (count + 1)
                    (rn ++ [m]) lnf hn
          have hw : ∃ lw, runLoop join (some fs) toS limS (fuel + 1) qs prev count [] =
              .ok lw ∧ [m] <+: lw := by
            rw [runLoop_succ_eq join (some fs) toS limS fuel qs prev count [] m? qs' expect
              [m] (count + 1) (some m) hstep hsw]
            by_cases h1 : expect = 0
            · rw [if_pos h1]
              exact ⟨[m], rfl, List.prefix_rfl⟩
            · rw [if_neg h1]
              by_cases h2 : toStop toS (count + 1) = true
              · rw [if_pos h2]
                exact ⟨[m], rfl, List.prefix_rfl⟩
              · rw [if_neg h2]
                by_cases h3 : limStop limS ([m] : List String).length = true
                · rw [if_pos h3]
                  exact ⟨[m], rfl, List.prefix_rfl⟩
                · rw [if_neg h3]
                  exact runLoop_ok_prefix join (some fs) toS limS hjv fuel qs'
                    (some m) (count + 1) [m]
          obtain ⟨lw, hwrun, hwpre⟩ := hw
          refine ⟨lw, hwrun, ?_⟩
          obtain ⟨t2, ht2⟩ := hwpre
          obtain ⟨t3, ht3⟩ := hnpref
          rw [← ht2, ← ht3]
          rw [List.append_assoc]
          rw [List.getElem?_append_right (by omega)]
          have hzero : k - rn.length = 0 := by omega
          rw [hzero]
          simp

/-- C7 amended: take a query `p` with `$from` set to a numeral of positive
value `k`, and the same query `p'` without `$from` (same predicates and same
other controls), where `$limit` — if present — does not convert to `0`.  If
the run without `$from` emits at least `k + 1` keys, then the run with
`$from` succeeds and its first key is the `(k+1)`-th key of the run without
`$from`.  (With `$limit = 0` this fails — see the counterexample — because
the `$from` run, whose result list stays empty longer, trips the
`results.length == $limit` check that the other run stepped over.) -/
theorem c7_from_offset (cx : StoreCx) (p p' : List (String × String))
    (k : Nat) (fs : String)
    (hq : mkQueries cx p = mkQueries cx p')
    (hj : p.lookup "$join" = p'.lookup "$join")
    (ht : p.lookup "$to" = p'.lookup "$to")
    (hl : p.lookup "$limit" = p'.lookup "$limit")
    (hfrom : p.lookup "$from" = some fs) (hfs : fs ≠ "")
    (hk : jsToNumS fs = some (k : Int)) (hkpos : 0 < k)
    (hfrom' : p'.lookup "$from" = none)
    (hlim : ∀ s, p.lookup "$limit" = some s → jsToNumS s ≠ some 0)
    (ln : List String) (hn : queryKeys cx p' = .ok ln)
    (hlen : k + 1 ≤ ln.length) :
    ∃ lw, queryKeys cx p = .ok lw ∧ lw.head? = ln[k]? := by
  cases hmk : mkQueries cx p' with
  | error e =>
    exfalso
    unfold queryKeys at hn
    rw [hmk] at hn
    cases hn
  | ok qs =>
    by_cases hempty : qs.isEmpty = true
    · exfalso
      rw [queryKeys_null cx p' qs hmk hempty] at hn
      injection hn with h
      rw [← h] at hlen
      simp at hlen
    · have hempty' : qs.isEmpty = false := by
        cases hval : qs.isEmpty
        · rfl
        · exact absurd hval hempty
      have hmk2 : mkQueries cx p = .ok qs := by rw [hq, hmk]
      rw [queryKeys_eq_run cx p' qs hmk hempty', hfrom'] at hn
      rw [queryKeys_eq_run cx p qs hmk2 hempty']
      have hjo : joinOf p = joinOf p' := by
        unfold joinOf
        rw [hj]
      rw [hjo, ht, hl, hfrom]
      have hlim' : ∀ s, p'.lookup "$limit" = some s → jsToNumS s ≠ some 0 := by
        rw [← hl]
        exact hlim
      exact runLoop_from_offset (joinOf p') (p'.lookup "$to") (p'.lookup "$limit")
        fs k hfs hk hlim' (totalFuel (qs.map (openCursor cx))) (qs.map (openCursor cx))
        none 0 [] (by omega) rfl ln hn hlen

/-- C7 witness: on the three-record store, `pk$from=a` without `$from` emits
`a, b, c`; with `$from=1` the first key is the second of those, `b`. -/
theorem c7_witness :
    ∃ lw, queryKeys cxABC [("pk$from", "a"), ("$from", "1")] = .ok lw ∧
      lw.head? = (["a", "b", "c"] : List String)[1]? :=
  c7_from_offset cxABC [("pk$from", "a"), ("$from", "1")] [("pk$from", "a")] 1 "1"
    (by decide) (by decide) (by decide) (by decide) (by decide) (by decide)
    (by decide) (by decide) (by decide)
    (fun s hs => by
      rw [show (List.lookup "$limit" [("pk$from", "a"), ("$from", "1")] :
        Option String) = none from rfl] at hs
      exact Option.noConfusion hs)
    ["a", "b", "c"] (by decide) (by decide)

/-- C7 counterexample: with `$limit=0` the query without `$from` emits the
three keys `a, b, c` (at least two matches), yet the same query with
`$from=1` returns the empty list — its first key is not the second emitted
key `b`, the claim fails. -/
theorem c7_counterexample :
    queryKeys cxABC [("pk$from", "a"), ("$from", "1"), ("$limit", "0")] = .ok [] ∧
    queryKeys cxABC [("pk$from", "a"), ("$limit", "0")] = .ok ["a", "b", "c"] ∧
    ¬ ((([] : List String)).head? = (["a", "b", "c"] : List String)[1]?) :=
  ⟨by decide, by decide, by decide⟩
